import Mathlib

/-!
Verification of the SnapVersion-Plus backup-browser core pipeline.

The development shallowly embeds the two Python entry points
(`SnapVersion+Plus.py` and `DocumentVersionExplorer.py`): pure string
helpers, the backup-name normalizer, the `difflib.unified_diff`-based
change counter, the version-label assignment, the backup-set resolver,
and the sidecar metadata/audit channel operations.  File contents are
modelled as lists of lines (`readlines()` results), sidecar channels as
explicit stores, and fallible reads as `Option` values.
-/

namespace SnapVersion

/-- Python `str.isspace` characters relevant to `str.strip()` (ASCII part).
`strip()` with no argument removes leading and trailing whitespace. -/
def pyIsSpace (c : Char) : Bool :=
  c = ' ' || c = '\t' || c = '\n' || c = '\r' || c = '\x0b' || c = '\x0c'

/-- Core of Python `str.strip()` on a character list: drop whitespace from
both ends. -/
def pyStripList (l : List Char) : List Char :=
  ((l.dropWhile pyIsSpace).reverse.dropWhile pyIsSpace).reverse

/-- Python `s.strip()`. -/
def pyStrip (s : String) : String := ⟨pyStripList s.data⟩

/-- Python `s.startswith(pre)`. -/
def pyStartsWith (s pre : String) : Bool := pre.data.isPrefixOf s.data

/-- Python `s.split('.')[0]`: the portion of the string before the first
dot (the whole string when it has no dot). -/
def pySplitDotHead (s : String) : String := ⟨s.data.takeWhile (fun c => c ≠ '.')⟩

theorem dropWhile_head_false {p : Char → Bool} :
    ∀ {l : List Char} {c t}, l.dropWhile p = c :: t → p c = false := by
  intro l
  induction l with
  | nil => intro c t h; simp [List.dropWhile] at h
  | cons x xs ih =>
    intro c t h
    by_cases hx : p x
    · rw [List.dropWhile_cons_of_pos hx] at h
      exact ih h
    · rw [List.dropWhile_cons_of_neg hx] at h
      cases h
      exact Bool.eq_false_iff.mpr hx

theorem dropWhile_of_head_false {p : Char → Bool} {l : List Char}
    (h : ∀ c t, l = c :: t → p c = false) : l.dropWhile p = l := by
  cases l with
  | nil => rfl
  | cons x xs => rw [List.dropWhile_cons_of_neg (by simp [h x xs rfl])]

theorem getLast_append_of_ne_nil {l₁ l₂ : List Char} (h : l₂ ≠ []) :
    (l₁ ++ l₂).getLast? = l₂.getLast? := by
  induction l₁ with
  | nil => rfl
  | cons x xs ih =>
    rw [List.cons_append, List.getLast?_cons, ih]
    cases l₂ with
    | nil => exact absurd rfl h
    | cons y ys => simp [List.getLast?_cons]

theorem dropWhile_getLast? {p : Char → Bool} {l r : List Char}
    (hr : l.dropWhile p = r) (hne : r ≠ []) : r.getLast? = l.getLast? := by
  have hsuff : l.dropWhile p <:+ l := List.dropWhile_suffix p
  rw [hr] at hsuff
  obtain ⟨pre, hpre⟩ := hsuff
  rw [← hpre, getLast_append_of_ne_nil hne]

/-- Both ends of `pyStripList l` are non-whitespace (when present). -/
theorem pyStripList_getLast?_false {l : List Char} {c : Char}
    (h : (pyStripList l).getLast? = some c) : pyIsSpace c = false := by
  unfold pyStripList at h
  rw [List.getLast?_reverse] at h
  cases hdw : (l.dropWhile pyIsSpace).reverse.dropWhile pyIsSpace with
  | nil => rw [hdw] at h; simp at h
  | cons x t =>
    rw [hdw] at h
    simp only [List.head?_cons, Option.some.injEq] at h
    subst h
    exact dropWhile_head_false hdw

theorem pyStripList_head?_false {l : List Char} {c : Char}
    (h : (pyStripList l).head? = some c) : pyIsSpace c = false := by
  unfold pyStripList at h
  rw [List.head?_reverse] at h
  cases hdw : (l.dropWhile pyIsSpace) with
  | nil => simp [hdw, List.dropWhile] at h
  | cons x t =>
    have hne : (l.dropWhile pyIsSpace).reverse.dropWhile pyIsSpace ≠ [] := by
      intro hnil
      rw [hnil] at h
      simp at h
    have := dropWhile_getLast? (l := (l.dropWhile pyIsSpace).reverse) rfl hne
    rw [this, List.getLast?_reverse, hdw, List.head?_cons] at h
    cases h
    exact dropWhile_head_false hdw

/-- Stripping is idempotent on character lists. -/
theorem pyStripList_idem (l : List Char) : pyStripList (pyStripList l) = pyStripList l := by
  have h1 : (pyStripList l).dropWhile pyIsSpace = pyStripList l := by
    apply dropWhile_of_head_false
    intro c t hct
    exact pyStripList_head?_false (l := l) (by rw [hct]; rfl)
  have h2 : (pyStripList l).reverse.dropWhile pyIsSpace = (pyStripList l).reverse := by
    apply dropWhile_of_head_false
    intro c t hct
    apply pyStripList_getLast?_false (l := l)
    rw [← List.head?_reverse, hct, List.head?_cons]
  show (((pyStripList l).dropWhile pyIsSpace).reverse.dropWhile pyIsSpace).reverse = pyStripList l
  rw [h1, h2, List.reverse_reverse]

/-- `pyStrip` is idempotent: stripping a stripped string changes nothing. -/
theorem pyStrip_idem (s : String) : pyStrip (pyStrip s) = pyStrip s := by
  unfold pyStrip
  exact congrArg String.mk (pyStripList_idem s.data)

/-! ## NameNormalizer

Both launchers derive a base name with
`re.match(r'^(.*)\.\d{4}-\d{2}-\d{2}_\d{6}\.bak$', filename)` and fall back
to `filename.split('.')[0]`.  `SnapVersion+Plus.py` additionally runs
`while '.' in base: base = base.split('.')[0]` on the result. -/

/-- Match a character list against a fixed-shape pattern where `D` stands
for one ASCII digit and every other pattern character stands for itself. -/
def matchesPat : List Char → List Char → Bool
  | [], [] => true
  | p :: ps, c :: cs => (if p = 'D' then c.isDigit else p = c) && matchesPat ps cs
  | _, _ => false

/-- The 22-character backup suffix `.\d{4}-\d{2}-\d{2}_\d{6}\.bak`. -/
def isTimestampBakSuffix (cs : List Char) : Bool :=
  matchesPat ".DDDD-DD-DD_DDDDDD.bak".data cs

theorem matchesPat_length : ∀ {ps cs}, matchesPat ps cs = true → cs.length = ps.length := by
  intro ps
  induction ps with
  | nil => intro cs h; cases cs with
    | nil => rfl
    | cons c t => simp [matchesPat] at h
  | cons p pt ih =>
    intro cs h
    cases cs with
    | nil => simp [matchesPat] at h
    | cons c ct =>
      simp only [matchesPat, Bool.and_eq_true] at h
      simp [List.length_cons, ih h.2]

theorem isTimestampBakSuffix_length {cs : List Char}
    (h : isTimestampBakSuffix cs = true) : cs.length = 22 :=
  matchesPat_length h

/-- `re.match(r'^(.*)\.\d{4}-\d{2}-\d{2}_\d{6}\.bak$', s)`: on success,
returns the characters captured by `(.*)`.  `.` does not match a newline,
and `$` also matches just before a single trailing newline; the suffix has
fixed length 22, so the split point is forced. -/
def reMatchTimestampBak (cs : List Char) : Option (List Char) :=
  let body := if cs.getLast? = some '\n' then cs.dropLast else cs
  if 22 ≤ body.length
      && !((body.take (body.length - 22)).contains '\n')
      && isTimestampBakSuffix (body.drop (body.length - 22))
  then some (body.take (body.length - 22))
  else none

/-- `DocumentVersionExplorer._get_base_name`: the regex stem on a match,
otherwise everything before the first dot. -/
def getBaseNameDVE (filename : String) : String :=
  match reMatchTimestampBak filename.data with
  | some stem => ⟨stem⟩
  | none => pySplitDotHead filename

/-- The `while '.' in base: base = base.split('.')[0]` loop of
`SnapVersion+Plus._get_base_name`; it terminates after one pass because the
portion before the first dot is dot-free. -/
def stripAllDots (s : String) : String :=
  if s.data.contains '.' then pySplitDotHead s else s

/-- `SnapVersion+Plus._get_base_name`: like the explorer version, but the
result is additionally truncated at its first dot by the trailing while
loop. -/
def getBaseNameSnap (filename : String) : String :=
  let base :=
    match reMatchTimestampBak filename.data with
    | some stem => (⟨stem⟩ : String)
    | none => pySplitDotHead filename
  stripAllDots base

/-! ## Model of `difflib.unified_diff`

Both launchers call `difflib.unified_diff(next_lines, curr_lines,
lineterm='')` on the `readlines()` results of the older and the newer file.
The model below follows CPython's `difflib.SequenceMatcher` without junk
handling (the autojunk heuristic only activates on sequences of at least
200 lines and is irrelevant to the counting properties proved here, which
are stated about this model). -/

/-- Python list slice `a[i:j]`. -/
def pySlice (a : List String) (i j : Nat) : List String := (a.take j).drop i

/-- Length of the longest common prefix of two lists of lines. -/
def commonPrefixLen : List String → List String → Nat
  | x :: xs, y :: ys => if x = y then commonPrefixLen xs ys + 1 else 0
  | _, _ => 0

/-- Length of the matching run of `a` and `b` starting at `(i, j)`,
confined to the windows `a[:ahi]`, `b[:bhi]`. -/
def runLen (a b : List String) (ahi bhi i j : Nat) : Nat :=
  commonPrefixLen ((a.take ahi).drop i) ((b.take bhi).drop j)

/-- `SequenceMatcher.find_longest_match(alo, ahi, blo, bhi)` with no junk:
of all maximal matching blocks in the window, the one starting earliest in
`a`, and of those the one starting earliest in `b`; `(alo, blo, 0)` when
the window has no common line.  (CPython computes this with a per-row
dynamic program; the first scan-order occurrence of the maximal run length
is the same block.) -/
def findLongestMatch (a b : List String) (alo ahi blo bhi : Nat) : Nat × Nat × Nat :=
  (List.range' alo (ahi - alo)).foldl (fun best i =>
    (List.range' blo (bhi - blo)).foldl (fun best j =>
      if best.2.2 < runLen a b ahi bhi i j then (i, j, runLen a b ahi bhi i j)
      else best) best) (alo, blo, 0)

/-- One matching block `(i, j, size)`. -/
abbrev Block := Nat × Nat × Nat

/-- Recursive core of `get_matching_blocks`: find the longest match in the
window, then recurse on the regions before and after it.  CPython drives
this with an explicit LIFO queue and sorts the collected blocks; the
in-order recursion below yields the same sorted list.  `fuel` bounds the
recursion depth; the top-level call supplies `|a| + |b| + 1`, which never
runs out because each recursive window is smaller. -/
def matchingBlocksAux (a b : List String) : Nat → Nat → Nat → Nat → Nat → List Block
  | 0, _, _, _, _ => []
  | fuel + 1, alo, ahi, blo, bhi =>
    let r := findLongestMatch a b alo ahi blo bhi
    let i := r.1
    let j := r.2.1
    let k := r.2.2
    if k = 0 then []
    else
      matchingBlocksAux a b fuel alo i blo j
        ++ (i, j, k) :: matchingBlocksAux a b fuel (i + k) ahi (j + k) bhi

/-- The adjacent-block merging pass at the end of `get_matching_blocks`,
carrying the pending block `(i1, j1, k1)` (initially `(0, 0, 0)`). -/
def mergeAdjacentBlocks : Nat → Nat → Nat → List Block → List Block
  | i1, j1, k1, [] => if k1 ≠ 0 then [(i1, j1, k1)] else []
  | i1, j1, k1, (i2, j2, k2) :: rest =>
    if i1 + k1 = i2 ∧ j1 + k1 = j2 then mergeAdjacentBlocks i1 j1 (k1 + k2) rest
    else (if k1 ≠ 0 then [(i1, j1, k1)] else []) ++ mergeAdjacentBlocks i2 j2 k2 rest

/-- `SequenceMatcher.get_matching_blocks`: recursively collected blocks,
adjacent ones merged, with the terminal sentinel `(len(a), len(b), 0)`. -/
def getMatchingBlocks (a b : List String) : List Block :=
  mergeAdjacentBlocks 0 0 0
      (matchingBlocksAux a b (a.length + b.length + 1) 0 a.length 0 b.length)
    ++ [(a.length, b.length, 0)]

/-- The four opcode tags of `SequenceMatcher.get_opcodes`. -/
inductive OpTag
  | replace
  | delete
  | insert
  | equal
deriving DecidableEq, Repr

/-- An opcode `(tag, i1, i2, j1, j2)`. -/
abbrev Opcode := OpTag × Nat × Nat × Nat × Nat

/-- The walk of `get_opcodes` over the matching blocks, carrying the
current positions `(i, j)`. -/
def getOpcodesAux : Nat → Nat → List Block → List Opcode
  | _, _, [] => []
  | i, j, (ai, bj, sz) :: rest =>
    (if i < ai ∧ j < bj then [(OpTag.replace, i, ai, j, bj)]
     else if i < ai then [(OpTag.delete, i, ai, j, bj)]
     else if j < bj then [(OpTag.insert, i, ai, j, bj)]
     else [])
      ++ (if sz ≠ 0 then [(OpTag.equal, ai, ai + sz, bj, bj + sz)] else [])
      ++ getOpcodesAux (ai + sz) (bj + sz) rest

/-- `SequenceMatcher.get_opcodes()`. -/
def getOpcodes (a b : List String) : List Opcode :=
  getOpcodesAux 0 0 (getMatchingBlocks a b)

/-- The leading-context trim `(tag, max(i1, i2-n), i2, max(j1, j2-n), j2)`
applied to an `equal` opcode (other opcodes unchanged). -/
def trimHeadEqual (n : Nat) : Opcode → Opcode
  | (OpTag.equal, i1, i2, j1, j2) => (OpTag.equal, max i1 (i2 - n), i2, max j1 (j2 - n), j2)
  | op => op

/-- The trailing-context trim `(tag, i1, min(i2, i1+n), j1, min(j2, j1+n))`
applied to an `equal` opcode (other opcodes unchanged). -/
def trimLastEqual (n : Nat) : Opcode → Opcode
  | (OpTag.equal, i1, i2, j1, j2) => (OpTag.equal, i1, min i2 (i1 + n), j1, min j2 (j1 + n))
  | op => op

/-- Apply `f` to the first element of a list. -/
def mapHead (f : Opcode → Opcode) : List Opcode → List Opcode
  | [] => []
  | x :: xs => f x :: xs

/-- Apply `f` to the last element of a list. -/
def mapLast (f : Opcode → Opcode) : List Opcode → List Opcode
  | [] => []
  | [x] => [f x]
  | x :: xs => x :: mapLast f xs

/-- `len(group) == 1 and group[0][0] == 'equal'`. -/
def isSingleEqual : List Opcode → Bool
  | [(OpTag.equal, _, _, _, _)] => true
  | _ => false

/-- The grouping loop of `get_grouped_opcodes`: accumulate opcodes into the
current group, splitting (and yielding) at `equal` opcodes wider than
`2 * n`; the final group is yielded unless it is a lone `equal`. -/
def groupLoop (n : Nat) : List Opcode → List Opcode → List (List Opcode)
  | group, [] => if !group.isEmpty && !isSingleEqual group then [group] else []
  | group, op :: rest =>
    if op.1 = OpTag.equal ∧ op.2.2.1 - op.2.1 > n + n then
      (group ++ [trimLastEqual n op]) :: groupLoop n [trimHeadEqual n op] rest
    else groupLoop n (group ++ [op]) rest

/-- `SequenceMatcher.get_grouped_opcodes(n)`: an empty opcode list is
replaced by a dummy `equal`, the leading and trailing `equal` opcodes are
trimmed to `n` context lines, then the grouping loop runs. -/
def groupedOpcodes (n : Nat) (codes : List Opcode) : List (List Opcode) :=
  let codes := if codes.isEmpty then [(OpTag.equal, 0, 1, 0, 1)] else codes
  let codes := mapHead (trimHeadEqual n) codes
  let codes := mapLast (trimLastEqual n) codes
  groupLoop n [] codes

/-- `difflib._format_range_unified`. -/
def formatRangeUnified (start stop : Nat) : String :=
  let beginning := start + 1
  let length := stop - start
  if length = 1 then toString beginning
  else toString (if length = 0 then beginning - 1 else beginning) ++ "," ++ toString length

/-- The tagged lines emitted for one opcode of a group: context lines with
a space, removals with `-` over `a[i1:i2]`, additions with `+` over
`b[j1:j2]` (removals before additions for `replace`). -/
def emitOp (a b : List String) : Opcode → List String
  | (OpTag.equal, i1, i2, _, _) => (pySlice a i1 i2).map (fun line => " " ++ line)
  | (OpTag.replace, i1, i2, j1, j2) =>
    (pySlice a i1 i2).map (fun line => "-" ++ line)
      ++ (pySlice b j1 j2).map (fun line => "+" ++ line)
  | (OpTag.delete, i1, i2, _, _) => (pySlice a i1 i2).map (fun line => "-" ++ line)
  | (OpTag.insert, _, _, j1, j2) => (pySlice b j1 j2).map (fun line => "+" ++ line)

/-- The `@@ -r1 +r2 @@` range line of a group. -/
def hunkLine (g : List Opcode) : String :=
  let first := g.headD (OpTag.equal, 0, 0, 0, 0)
  let final := g.getLastD (OpTag.equal, 0, 0, 0, 0)
  "@@ -" ++ formatRangeUnified first.2.1 final.2.2.1
    ++ " +" ++ formatRangeUnified first.2.2.2.1 final.2.2.2.2 ++ " @@"

/-- `list(difflib.unified_diff(a, b, lineterm=''))` with the default file
names and context size 3: the two header lines `--- ` and `+++ ` before
the first group, then for each group its range line and tagged lines. -/
def unifiedDiff (a b : List String) : List String :=
  let groups := groupedOpcodes 3 (getOpcodes a b)
  if groups.isEmpty then []
  else "--- " :: "+++ " :: groups.flatMap (fun g => hunkLine g :: g.flatMap (emitOp a b))

/-! ## Change descriptors of the two launchers -/

/-- The sign prefix both launchers attach: `+` when the newer file has
strictly more lines, `-` when strictly fewer, empty when equal. -/
def changeSign (older newer : List String) : String :=
  if newer.length > older.length then "+"
  else if newer.length < older.length then "-"
  else ""

/-- The change descriptor of `SnapVersion+Plus.load_backups_from_name`:
count the diff lines starting with `'+'` or `'-'`, subtract 3 (clamped at
0, as Python's `max(0, change_count - 3)`), and format with the sign. -/
def changeDescriptorSnap (older newer : List String) : String :=
  let diff := unifiedDiff older newer
  let changeCount := (diff.filter (fun line => pyStartsWith line "+" || pyStartsWith line "-")).length
  changeSign older newer ++ toString (changeCount - 3) ++ " lines"

/-- The change descriptor of `DocumentVersionExplorer.load_versions`:
count the diff lines starting with `'+'` or `'-'` but not with `'+++'` or
`'---'`, and format with the sign. -/
def changeDescriptorDVE (older newer : List String) : String :=
  let diff := unifiedDiff older newer
  let changeCount := (diff.filter (fun line =>
    (pyStartsWith line "+" || pyStartsWith line "-")
      && !(pyStartsWith line "+++" || pyStartsWith line "---"))).length
  changeSign older newer ++ toString changeCount ++ " lines"

/-- The `diff_counts` list a launcher builds over the newest-first entry
list: `"N/A"` for the last (oldest) entry, the change descriptor against
the next older entry otherwise, and `"Error"` when either read fails.
`reads` holds each entry's `readlines()` result (`none` = read failure). -/
def diffCountsOf (desc : List String → List String → String)
    (reads : List (Option (List String))) : List String :=
  (List.range reads.length).map (fun i =>
    if i = reads.length - 1 then "N/A"
    else
      match reads.getD i none, reads.getD (i + 1) none with
      | some cur, some older => desc older cur
      | _, _ => "Error")

/-! ## Spec-side change count -/

/-- Number of emitted `-` and `+` lines of one opcode: the lines of the
unified diff that represent a removal or an addition. -/
def specOpCount (a b : List String) : Opcode → Nat
  | (OpTag.equal, _, _, _, _) => 0
  | (OpTag.replace, i1, i2, j1, j2) => (pySlice a i1 i2).length + (pySlice b j1 j2).length
  | (OpTag.delete, i1, i2, _, _) => (pySlice a i1 i2).length
  | (OpTag.insert, _, _, j1, j2) => (pySlice b j1 j2).length

/-- Modelled from the spec's words: the number of lines of the unified
diff (older file as baseline, newer as target) that represent an addition
or a removal, excluding the diff's own header/hunk marker lines. -/
def specChangeCount (older newer : List String) : Nat :=
  ((getOpcodes older newer).map (specOpCount older newer)).sum

/-! ## Sidecar metadata channels

Each tracked file has a `:source` stream (one current tag, overwrite
semantics) and a `:meta_audit` stream (append-only log).  The audit store
maps each file path to the raw line list of its `:meta_audit` stream; the
happy path (readable and writable channels) is modelled, matching the
claims' hypotheses. -/

/-- The audit channels of a set of files: raw stored lines per path. -/
def AuditStore : Type := String → List String

/-- `read_meta_audit` (both launchers, successful read): the stripped,
non-blank lines of the `:meta_audit` stream.  Python's
`[line.strip() for line in lines if line.strip()]` filters on the same
stripped value it returns, so map-then-filter is the same list. -/
def readMetaAudit (store : AuditStore) (p : String) : List String :=
  ((store p).map pyStrip).filter (fun line => line ≠ "")

/-- `append_meta_audit(path, entries)` (successful write): no-op for an
empty entry list; otherwise the entries that are non-blank after stripping
and whose stripped form is not already among the stream's stripped lines
are appended as-is, one line each. -/
def appendMetaAudit (store : AuditStore) (p : String) (entries : List String) : AuditStore :=
  if entries.isEmpty then store
  else
    let existing := readMetaAudit store p
    let newEntries := entries.filter (fun e => pyStrip e ≠ "" && !existing.contains (pyStrip e))
    if newEntries.isEmpty then store
    else fun q => if q = p then store p ++ newEntries else store q

/-- The inline audit sync of `SnapVersion+Plus.load_backups_from_name`:
read every file's audit entries into one combined list (all reads happen
before any append), then append that list to every file. -/
def syncAuditSnap (store : AuditStore) (paths : List String) : AuditStore :=
  let allEntries := paths.flatMap (readMetaAudit store)
  paths.foldl (fun st p => appendMetaAudit st p allEntries) store

/-- `DocumentVersionExplorer.sync_meta_audit_streams`: the set of all
entries across the set's audit channels (a Python `set`; modelled by
`dedup`), sorted, appended to every file; no-op on an empty file list or
an empty union. -/
def syncMetaAuditStreams (store : AuditStore) (paths : List String) : AuditStore :=
  if paths.isEmpty then store
  else
    let allUnique := (paths.flatMap (readMetaAudit store)).dedup
    if allUnique.isEmpty then store
    else
      let entriesList := allUnique.mergeSort (fun x y => decide (x ≤ y))
      paths.foldl (fun st p => appendMetaAudit st p entriesList) store

/-- The two sidecar channels of one file: the `:source` stream content
(`none` when the stream is absent or unreadable) and the `:meta_audit`
stream lines. -/
structure AdsState where
  source : Option String
  audit : List String

/-- `read_ads_metadata` (both launchers): the stripped `:source` content,
or the empty string when the stream is absent or unreadable; every failure
is caught inside the function. -/
def readAdsMetadata (st : AdsState) : String :=
  match st.source with
  | some content => pyStrip content
  | none => ""

/-- `MetaTagEditor.save_meta` (successful write, at clock time
`timestamp`): overwrite `:source` with the stripped editor text, then
append the `[timestamp] content` history line to `:meta_audit`. -/
def saveMeta (st : AdsState) (text timestamp : String) : AdsState :=
  let content := pyStrip text
  { source := some content,
    audit := st.audit ++ ["[" ++ timestamp ++ "] " ++ content] }

/-! ## Backup-set resolution and version labels -/

/-- The per-candidate entry collection of `load_backups_from_name` /
`load_versions`: read each candidate's creation time (`none` models the
`except OSError: continue` path, which skips the file), then sort newest
first (Python's stable `sort(key=..., reverse=True)` keeps the original
order of equal timestamps, as stable `mergeSort` with `≥` does). -/
def resolveEntries (names : List String) (ctime : String → Option Nat) :
    List (Nat × String) :=
  let entries := names.filterMap (fun n => (ctime n).map (fun t => (t, n)))
  entries.mergeSort (fun x y => decide (y.1 ≤ x.1))

/-- The version numbers assigned over `n` entries in newest-first order:
the entry at 0-based index `idx` receives `total_versions - idx`. -/
def versionNumbers (n : Nat) : List Nat :=
  (List.range n).map (fun idx => n - idx)

/-! ## The spec's descriptor shape `^[+-]?\d+ lines$` -/

/-- One or more ASCII digits followed by exactly the literal ` lines`. -/
def digitsThenLines : List Char → Bool
  | [] => false
  | c :: rest => c.isDigit && (rest == " lines".data || digitsThenLines rest)

/-- Decides the spec's regular expression `^[+-]?\d+ lines$`. -/
def matchesChangeRegex (s : String) : Bool :=
  match s.data with
  | '+' :: rest => digitsThenLines rest
  | '-' :: rest => digitsThenLines rest
  | cs => digitsThenLines cs

/-! ## Helper lemmas -/

theorem toDigitsCore_digits : ∀ (fuel n : Nat) (ds : List Char),
    (∀ c ∈ ds, c.isDigit = true) →
    ∀ c ∈ Nat.toDigitsCore 10 fuel n ds, c.isDigit = true := by
  intro fuel
  induction fuel with
  | zero => intro n ds hds; simpa [Nat.toDigitsCore] using hds
  | succ fuel ih =>
    intro n ds hds c hc
    have hd : (n % 10).digitChar.isDigit = true := by
      have hlt : n % 10 < 10 := Nat.mod_lt _ (by decide)
      interval_cases hmod : n % 10 <;> decide
    simp only [Nat.toDigitsCore] at hc
    split at hc
    · rcases List.mem_cons.mp hc with h | h
      · subst h; exact hd
      · exact hds c h
    · refine ih _ _ ?_ c hc
      intro x hx
      rcases List.mem_cons.mp hx with h | h
      · subst h; exact hd
      · exact hds x h

theorem toDigitsCore_ne_nil : ∀ (fuel n : Nat) (ds : List Char), ds ≠ [] →
    Nat.toDigitsCore 10 fuel n ds ≠ [] := by
  intro fuel
  induction fuel with
  | zero => intro n ds h; simpa [Nat.toDigitsCore] using h
  | succ fuel ih =>
    intro n ds h
    simp only [Nat.toDigitsCore]
    split
    · simp
    · exact ih _ _ (by simp)

theorem toDigitsCore_ne_nil_of_fuel (fuel n : Nat) (ds : List Char) (h : fuel ≠ 0) :
    Nat.toDigitsCore 10 fuel n ds ≠ [] := by
  cases fuel with
  | zero => exact absurd rfl h
  | succ fuel =>
    simp only [Nat.toDigitsCore]
    split
    · simp
    · exact toDigitsCore_ne_nil _ _ _ (by simp)

/-- The decimal rendering of a natural number is a non-empty string of
ASCII digits. -/
theorem repr_digits (n : Nat) :
    (Nat.repr n).data ≠ [] ∧ ∀ c ∈ (Nat.repr n).data, c.isDigit = true := by
  have h1 : (Nat.repr n).data = Nat.toDigitsCore 10 (n + 1) n [] := rfl
  rw [h1]
  exact ⟨toDigitsCore_ne_nil_of_fuel (n + 1) n [] (by simp),
    toDigitsCore_digits (n + 1) n [] (by simp)⟩

theorem digitsThenLines_append {ds : List Char} (hne : ds ≠ [])
    (hdig : ∀ c ∈ ds, c.isDigit = true) :
    digitsThenLines (ds ++ " lines".data) = true := by
  induction ds with
  | nil => exact absurd rfl hne
  | cons c t ih =>
    show (c.isDigit
      && ((t ++ " lines".data) == " lines".data || digitsThenLines (t ++ " lines".data))) = true
    rw [hdig c (List.mem_cons_self c t), Bool.true_and]
    cases t with
    | nil => simp
    | cons c2 t2 =>
      rw [ih (by simp) (fun x hx => hdig x (List.mem_cons_of_mem c hx)), Bool.or_true]

/-- Any descriptor of the form `sign ++ toString count ++ " lines"` with
sign `""`, `"+"` or `"-"` matches `^[+-]?\d+ lines$`. -/
theorem matchesChangeRegex_descriptor (sign : String) (count : Nat)
    (hsign : sign = "" ∨ sign = "+" ∨ sign = "-") :
    matchesChangeRegex (sign ++ toString count ++ " lines") = true := by
  obtain ⟨hne, hdig⟩ := repr_digits count
  have hdtl : digitsThenLines ((Nat.repr count).data ++ " lines".data) = true :=
    digitsThenLines_append hne hdig
  have hdata : (sign ++ toString count ++ " lines").data
      = sign.data ++ ((Nat.repr count).data ++ " lines".data) := by
    simp [String.data_append, toString]
  rcases hsign with h | h | h <;> subst h
  · unfold matchesChangeRegex
    rw [hdata]
    cases hrd : (Nat.repr count).data with
    | nil => exact absurd hrd hne
    | cons c t =>
      have hc : c.isDigit = true := hdig c (by rw [hrd]; exact List.mem_cons_self c t)
      have hplus : c ≠ '+' := by intro h; rw [h] at hc; simp [Char.isDigit] at hc
      have hminus : c ≠ '-' := by intro h; rw [h] at hc; simp [Char.isDigit] at hc
      rw [hrd] at hdtl
      simp only [List.nil_append, List.cons_append]
      split
      · rename_i rest heq
        rw [List.cons.injEq] at heq
        exact absurd heq.1 hplus
      · rename_i rest heq
        rw [List.cons.injEq] at heq
        exact absurd heq.1 hminus
      · exact hdtl
  · unfold matchesChangeRegex
    rw [hdata]
    exact hdtl
  · unfold matchesChangeRegex
    rw [hdata]
    exact hdtl

theorem matchesPat_getLast : ∀ {ps cs : List Char} {p : Char},
    matchesPat ps cs = true → ps.getLast? = some p → p ≠ 'D' →
    cs.getLast? = some p := by
  intro ps
  induction ps with
  | nil => intro cs p h hlast hD; simp at hlast
  | cons q qs ih =>
    intro cs p h hlast hD
    cases cs with
    | nil => simp [matchesPat] at h
    | cons c ct =>
      simp only [matchesPat, Bool.and_eq_true] at h
      cases qs with
      | nil =>
        simp only [List.getLast?_singleton, Option.some.injEq] at hlast
        subst hlast
        have hct : ct = [] := by
          have := matchesPat_length h.2
          simpa using this
        subst hct
        have h1 := h.1
        rw [if_neg hD] at h1
        have : q = c := by simpa using h1
        subst this
        rfl
      | cons q2 qs2 =>
        have hlast2 : (q2 :: qs2).getLast? = some p := by
          rw [← List.getLast?_cons_cons (a := q)]
          exact hlast
        have hctlen := matchesPat_length h.2
        cases ct with
        | nil => simp at hctlen
        | cons c2 ct2 =>
          rw [List.getLast?_cons_cons]
          exact ih h.2 hlast2 hD

/-! ## C2: base-name extraction -/

theorem reMatchTimestampBak_append {stem suffix : String}
    (hstem : stem.data.contains '\n' = false)
    (hsuf : isTimestampBakSuffix suffix.data = true) :
    reMatchTimestampBak (stem ++ suffix).data = some stem.data := by
  have hlen : suffix.data.length = 22 := isTimestampBakSuffix_length hsuf
  have hk : suffix.data.getLast? = some 'k' :=
    matchesPat_getLast hsuf (by decide) (by decide)
  have hdata : (stem ++ suffix).data = stem.data ++ suffix.data := String.data_append _ _
  have hlast : (stem.data ++ suffix.data).getLast? = some 'k' := by
    rw [getLast_append_of_ne_nil (by intro h; rw [h] at hlen; simp at hlen)]
    exact hk
  have hlen2 : (stem.data ++ suffix.data).length = stem.data.length + 22 := by
    rw [List.length_append, hlen]
  have hsub : stem.data.length + 22 - 22 = stem.data.length := by omega
  simp only [reMatchTimestampBak]
  rw [hdata, hlast]
  rw [if_neg (show (some 'k' : Option Char) ≠ some '\n' by decide)]
  rw [hlen2, hsub, List.take_left, List.drop_left, hstem, hsuf]
  rw [if_pos (by simp [Nat.le_add_left])]

/-- C2 counterexample: for the backup filename `a.b.2024-01-01_090000.bak`
(stem `a.b`), `SnapVersion+Plus._get_base_name` returns `a`, not the stem
`a.b` unmodified as the claim states. -/
theorem C2_counterexample :
    getBaseNameSnap "a.b.2024-01-01_090000.bak" = "a"
      ∧ ("a" : String) ≠ "a.b"
      ∧ getBaseNameDVE "a.b.2024-01-01_090000.bak" = "a.b" := by
  refine ⟨by decide, by decide, by decide⟩

/-- C2 (amended): for every filename `<stem><suffix>` where `suffix`
matches `.<YYYY>-<MM>-<DD>_<HHMMSS>.bak` and the stem has no newline,
`DocumentVersionExplorer._get_base_name` returns the stem unmodified
(including any dots), while `SnapVersion+Plus._get_base_name` returns the
portion of the stem before its first dot (the stem itself when it contains
no dot). -/
theorem C2_base_name_amended (stem suffix : String)
    (hstem : stem.data.contains '\n' = false)
    (hsuf : isTimestampBakSuffix suffix.data = true) :
    getBaseNameDVE (stem ++ suffix) = stem
      ∧ getBaseNameSnap (stem ++ suffix) = ⟨stem.data.takeWhile (fun c => c ≠ '.')⟩ := by
  have hmatch := reMatchTimestampBak_append hstem hsuf
  constructor
  · unfold getBaseNameDVE
    rw [hmatch]
  · unfold getBaseNameSnap
    rw [hmatch]
    simp only
    unfold stripAllDots
    split
    · rfl
    · next hnodot =>
      have : stem.data.takeWhile (fun c => c ≠ '.') = stem.data := by
        rw [List.takeWhile_eq_self_iff]
        intro x hx
        simp only [ne_eq, decide_eq_true_eq]
        intro hdot
        subst hdot
        exact hnodot (by
          have : ('.' : Char) ∈ stem.data := hx
          simpa [List.contains, List.elem_iff] using this)
      rw [this]

/-- C2 witness for the amended theorem, at stem `a.b`. -/
theorem C2_amended_witness :
    getBaseNameDVE ("a.b" ++ ".2024-01-01_090000.bak") = "a.b"
      ∧ getBaseNameSnap ("a.b" ++ ".2024-01-01_090000.bak")
        = ⟨("a.b" : String).data.takeWhile (fun c => c ≠ '.')⟩ :=
  C2_base_name_amended "a.b" ".2024-01-01_090000.bak" (by decide) (by decide)

/-! ## C3: version labels -/

/-- C3: for a successfully resolved set of `n` entries in newest-first
order, the entry at 0-based index `i` receives version number `n - i`
(so the newest gets `n` and the oldest `1`), and the assigned numbers are
exactly `1, …, n` with no gaps. -/
theorem C3_version_labels (n i : Nat) (h : i < n) :
    (versionNumbers n)[i]? = some (n - i)
      ∧ (versionNumbers n).Perm (List.range' 1 n) := by
  constructor
  · unfold versionNumbers
    rw [List.getElem?_map, List.getElem?_range h]
    rfl
  · have hrev : versionNumbers n = (List.range' 1 n).reverse := by
      rw [List.reverse_range']
      unfold versionNumbers
      apply List.map_congr_left
      intro x _
      omega
    rw [hrev]
    exact List.reverse_perm _

/-- C3 witness at `n = 3`, `i = 0`. -/
theorem C3_witness :
    (versionNumbers 3)[0]? = some (3 - 0)
      ∧ (versionNumbers 3).Perm (List.range' 1 3) :=
  C3_version_labels 3 0 (by decide)

/-! ## C5: idempotence of `append_meta_audit` -/

theorem contains_iff_mem {l : List String} {s : String} :
    l.contains s = true ↔ s ∈ l := by
  simp [List.contains, List.elem_iff]

/-- C5: calling `append_meta_audit` twice in succession with the same
entries stores exactly what the first call stored; the second call appends
nothing, because each surviving entry's stripped form is already present
after the first call. -/
theorem C5_append_meta_audit_idempotent (store : AuditStore) (p : String)
    (entries : List String) :
    appendMetaAudit (appendMetaAudit store p entries) p entries
      = appendMetaAudit store p entries := by
  by_cases hemp : entries.isEmpty
  · have h1 : appendMetaAudit store p entries = store := by
      unfold appendMetaAudit; rw [if_pos hemp]
    rw [h1]
    exact h1
  · by_cases hNemp : (entries.filter (fun e =>
        pyStrip e ≠ "" && !(readMetaAudit store p).contains (pyStrip e))).isEmpty
    · have h1 : appendMetaAudit store p entries = store := by
        unfold appendMetaAudit
        rw [if_neg hemp]
        simp only
        rw [if_pos hNemp]
      rw [h1]
      exact h1
    · have h1 : appendMetaAudit store p entries = fun q =>
          if q = p then
            store p ++ entries.filter (fun e =>
              pyStrip e ≠ "" && !(readMetaAudit store p).contains (pyStrip e))
          else store q := by
        unfold appendMetaAudit
        rw [if_neg hemp]
        simp only
        rw [if_neg hNemp]
      set N := entries.filter (fun e =>
        pyStrip e ≠ "" && !(readMetaAudit store p).contains (pyStrip e)) with hN
      rw [h1]
      set st2 : AuditStore := fun q => if q = p then store p ++ N else store q with hst2
      have hst2p : st2 p = store p ++ N := by rw [hst2]; simp
      have hread : readMetaAudit st2 p
          = readMetaAudit store p ++ (N.map pyStrip).filter (fun line => line ≠ "") := by
        unfold readMetaAudit
        rw [hst2p, List.map_append, List.filter_append]
      have hsub : ∀ e ∈ entries, pyStrip e ≠ "" →
          (readMetaAudit st2 p).contains (pyStrip e) = true := by
        intro e he hne
        rw [contains_iff_mem, hread]
        by_cases hpass : (readMetaAudit store p).contains (pyStrip e)
        · exact List.mem_append_left _ (contains_iff_mem.mp hpass)
        · apply List.mem_append_right
          rw [List.mem_filter]
          refine ⟨List.mem_map_of_mem pyStrip ?_, by simpa using hne⟩
          rw [hN, List.mem_filter]
          refine ⟨he, ?_⟩
          simp only [Bool.and_eq_true, decide_eq_true_eq, Bool.not_eq_true]
          exact ⟨by simpa using hne, by simpa using hpass⟩
      have hN2 : entries.filter (fun e =>
          pyStrip e ≠ "" && !(readMetaAudit st2 p).contains (pyStrip e)) = [] := by
        rw [List.filter_eq_nil_iff]
        intro e he
        simp only [Bool.and_eq_true, decide_eq_true_eq, Bool.not_eq_true, not_and]
        intro hne
        rw [hsub e he (by simpa using hne)]
        simp
      unfold appendMetaAudit
      rw [if_neg hemp]
      simp only
      rw [hN2]
      simp

/-! ## C7: resolver skips unreadable candidates -/

/-- C7: over the listed candidates, a creation-time read failure for one
file only skips that file: the resolver returns exactly one entry per
readable candidate (each with its actual creation time), and no entry for
the unreadable ones. -/
theorem C7_resolver_skips_bad_files (names : List String)
    (ctime : String → Option Nat) :
    (resolveEntries names ctime).length
        = (names.filter (fun n => (ctime n).isSome)).length
      ∧ ∀ t n, (t, n) ∈ resolveEntries names ctime → ctime n = some t := by
  constructor
  · unfold resolveEntries
    rw [(List.mergeSort_perm _ _).length_eq]
    induction names with
    | nil => rfl
    | cons x xs ih =>
      simp only [List.filterMap_cons, List.filter_cons]
      cases hx : ctime x with
      | none => simpa [hx] using ih
      | some t => simpa [hx] using ih
  · intro t n hmem
    unfold resolveEntries at hmem
    rw [List.mem_mergeSort, List.mem_filterMap] at hmem
    obtain ⟨m, _, hmap⟩ := hmem
    rw [Option.map_eq_some'] at hmap
    obtain ⟨tv, htv, heq⟩ := hmap
    cases heq
    exact htv

/-- C7 witness: one readable and one unreadable candidate. -/
theorem C7_witness :
    (resolveEntries ["good.bak", "bad.bak"]
        (fun n => if n = "good.bak" then some 5 else none)).length
      = (["good.bak", "bad.bak"].filter
          (fun n => ((fun n => if n = "good.bak" then some 5 else none) n).isSome)).length
      ∧ (fun n => if n = "good.bak" then some 5 else none : String → Option Nat)
          "good.bak" = some 5 :=
  ⟨(C7_resolver_skips_bad_files ["good.bak", "bad.bak"]
      (fun n => if n = "good.bak" then some 5 else none)).1,
    (C7_resolver_skips_bad_files ["good.bak", "bad.bak"]
      (fun n => if n = "good.bak" then some 5 else none)).2 5 "good.bak"
      (by unfold resolveEntries; exact List.mem_mergeSort.mpr (by decide))⟩

/-! ## C8: `read_ads_metadata` totality -/

/-- C8: `read_ads_metadata` returns the stripped `:source` content when the
stream is readable and the empty string when it is absent or unreadable;
as a total function of the modelled read outcome it raises nothing. -/
theorem C8_read_source_never_raises (st : AdsState) :
    (st.source = none → readAdsMetadata st = "")
      ∧ ∀ content, st.source = some content → readAdsMetadata st = pyStrip content := by
  constructor
  · intro h; unfold readAdsMetadata; rw [h]
  · intro c h; unfold readAdsMetadata; rw [h]

/-- C8 witness: a present and an absent `:source` stream. -/
theorem C8_witness :
    readAdsMetadata ⟨some "  tag  ", []⟩ = pyStrip "  tag  "
      ∧ readAdsMetadata ⟨none, []⟩ = "" :=
  ⟨(C8_read_source_never_raises ⟨some "  tag  ", []⟩).2 "  tag  " rfl,
    (C8_read_source_never_raises ⟨none, []⟩).1 rfl⟩

/-! ## C9: meta-tag round trip -/

/-- C9: saving text through the meta-tag editor stores exactly the
stripped text in the `:source` stream, and a subsequent
`read_ads_metadata` returns that stripped string (stripping is
idempotent). -/
theorem C9_meta_tag_roundtrip (st : AdsState) (text timestamp : String) :
    (saveMeta st text timestamp).source = some (pyStrip text)
      ∧ readAdsMetadata (saveMeta st text timestamp) = pyStrip text := by
  refine ⟨rfl, ?_⟩
  show pyStrip (pyStrip text) = pyStrip text
  exact pyStrip_idem text

/-! ## C4: audit sync converges to the union -/

theorem appendMetaAudit_apply_other {store : AuditStore} {p : String}
    {entries : List String} {q : String} (hqp : q ≠ p) :
    appendMetaAudit store p entries q = store q := by
  unfold appendMetaAudit
  by_cases hemp : entries.isEmpty
  · rw [if_pos hemp]
  · rw [if_neg hemp]
    by_cases hN : (entries.filter (fun e =>
        pyStrip e ≠ "" && !(readMetaAudit store p).contains (pyStrip e))).isEmpty
    · rw [if_pos hN]
    · rw [if_neg hN]
      rw [if_neg hqp]

theorem appendMetaAudit_apply_self (store : AuditStore) (p : String)
    (entries : List String) :
    appendMetaAudit store p entries p
      = store p ++ entries.filter (fun e =>
          pyStrip e ≠ "" && !(readMetaAudit store p).contains (pyStrip e)) := by
  unfold appendMetaAudit
  by_cases hemp : entries.isEmpty
  · rw [if_pos hemp]
    rw [List.isEmpty_iff.mp hemp]
    simp
  · rw [if_neg hemp]
    by_cases hN : (entries.filter (fun e =>
        pyStrip e ≠ "" && !(readMetaAudit store p).contains (pyStrip e))).isEmpty
    · rw [if_pos hN]
      rw [List.isEmpty_iff.mp hN]
      simp
    · rw [if_neg hN]
      rw [if_pos rfl]

theorem readMetaAudit_append_other {store : AuditStore} {p : String}
    {entries : List String} {q : String} (hqp : q ≠ p) :
    readMetaAudit (appendMetaAudit store p entries) q = readMetaAudit store q := by
  unfold readMetaAudit
  rw [appendMetaAudit_apply_other hqp]

theorem mem_read_append_self {store : AuditStore} {p : String}
    {entries : List String} {s : String} :
    s ∈ readMetaAudit (appendMetaAudit store p entries) p
      ↔ s ∈ readMetaAudit store p ∨ ∃ e ∈ entries, pyStrip e = s ∧ s ≠ "" := by
  have happ : readMetaAudit (appendMetaAudit store p entries) p
      = readMetaAudit store p
        ++ ((entries.filter (fun e =>
            pyStrip e ≠ "" && !(readMetaAudit store p).contains (pyStrip e))).map
              pyStrip).filter (fun line => line ≠ "") := by
    conv_lhs => unfold readMetaAudit
    rw [appendMetaAudit_apply_self, List.map_append, List.filter_append]
    rfl
  rw [happ, List.mem_append]
  constructor
  · rintro (h | h)
    · exact Or.inl h
    · right
      rw [List.mem_filter] at h
      obtain ⟨hmap, hne⟩ := h
      rw [List.mem_map] at hmap
      obtain ⟨e, heN, hstrip⟩ := hmap
      rw [List.mem_filter] at heN
      exact ⟨e, heN.1, hstrip, by simpa using hne⟩
  · rintro (h | ⟨e, he, hstrip, hne⟩)
    · exact Or.inl h
    · by_cases hpass : (readMetaAudit store p).contains (pyStrip e)
      · left
        rw [hstrip] at hpass
        exact contains_iff_mem.mp hpass
      · right
        rw [List.mem_filter]
        constructor
        · rw [List.mem_map]
          refine ⟨e, ?_, hstrip⟩
          rw [List.mem_filter]
          refine ⟨he, ?_⟩
          simp only [Bool.and_eq_true, decide_eq_true_eq, Bool.not_eq_true]
          exact ⟨by rw [hstrip]; exact hne, by simpa using hpass⟩
        · simpa using hne

/-- Every entry a read returns is already stripped and non-blank. -/
theorem pyStrip_mem_read {store : AuditStore} {p : String} {s : String}
    (h : s ∈ readMetaAudit store p) : pyStrip s = s ∧ s ≠ "" := by
  unfold readMetaAudit at h
  rw [List.mem_filter] at h
  obtain ⟨hmap, hne⟩ := h
  rw [List.mem_map] at hmap
  obtain ⟨l, _, hstrip⟩ := hmap
  subst hstrip
  exact ⟨pyStrip_idem l, by simpa using hne⟩

theorem read_fold_append_not_mem (U : List String) :
    ∀ (paths : List String) (store : AuditStore) (p : String), p ∉ paths →
      readMetaAudit (paths.foldl (fun st q => appendMetaAudit st q U) store) p
        = readMetaAudit store p := by
  intro paths
  induction paths with
  | nil => intro store p _; rfl
  | cons q qs ih =>
    intro store p h
    rw [List.foldl_cons]
    rw [ih _ _ (fun hm => h (List.mem_cons_of_mem q hm))]
    exact readMetaAudit_append_other (fun hpq => h (hpq ▸ List.mem_cons_self q qs))

theorem mem_read_fold_append {U : List String}
    (hU : ∀ e ∈ U, pyStrip e = e ∧ e ≠ "") :
    ∀ (paths : List String) (store : AuditStore) (p : String), p ∈ paths →
      ∀ s, s ∈ readMetaAudit (paths.foldl (fun st q => appendMetaAudit st q U) store) p
        ↔ (s ∈ readMetaAudit store p ∨ s ∈ U) := by
  intro paths
  induction paths with
  | nil => intro store p h; cases h
  | cons q qs ih =>
    intro store p hp s
    rw [List.foldl_cons]
    by_cases hpqs : p ∈ qs
    · rw [ih _ _ hpqs s]
      by_cases hpq : p = q
      · subst hpq
        rw [mem_read_append_self]
        constructor
        · rintro ((h | ⟨e, he, hstrip, _⟩) | h)
          · exact Or.inl h
          · right
            rw [(hU e he).1] at hstrip
            exact hstrip ▸ he
          · exact Or.inr h
        · rintro (h | h)
          · exact Or.inl (Or.inl h)
          · exact Or.inr h
      · rw [readMetaAudit_append_other hpq]
    · have hpq : p = q := by
        rcases List.mem_cons.mp hp with h | h
        · exact h
        · exact absurd h hpqs
      subst hpq
      rw [read_fold_append_not_mem U qs _ p hpqs]
      rw [mem_read_append_self]
      constructor
      · rintro (h | ⟨e, he, hstrip, _⟩)
        · exact Or.inl h
        · right
          rw [(hU e he).1] at hstrip
          exact hstrip ▸ he
      · rintro (h | h)
        · exact Or.inl h
        · exact Or.inr ⟨s, h, (hU s h).1, (hU s h).2⟩

/-- C4: after syncing the audit streams across a set of files that
contains `p`, the audit content of `p` (as a set of entries) is exactly
the union of the audit entries that existed across all files of the set
before the sync — for the explorer's `sync_meta_audit_streams` and for the
inline sync of `SnapVersion+Plus.load_backups_from_name` alike. -/
theorem C4_sync_union (store : AuditStore) (paths : List String) (p : String)
    (hp : p ∈ paths) (s : String) :
    (s ∈ readMetaAudit (syncMetaAuditStreams store paths) p
        ↔ ∃ q ∈ paths, s ∈ readMetaAudit store q)
      ∧ (s ∈ readMetaAudit (syncAuditSnap store paths) p
        ↔ ∃ q ∈ paths, s ∈ readMetaAudit store q) := by
  have hflat : ∀ e, e ∈ paths.flatMap (readMetaAudit store)
      ↔ ∃ q ∈ paths, e ∈ readMetaAudit store q := by
    intro e
    exact List.mem_flatMap
  have hUprop : ∀ e ∈ paths.flatMap (readMetaAudit store), pyStrip e = e ∧ e ≠ "" := by
    intro e he
    obtain ⟨q, _, hq⟩ := (hflat e).mp he
    exact pyStrip_mem_read hq
  constructor
  · unfold syncMetaAuditStreams
    rw [if_neg (by simp [List.isEmpty_iff, List.ne_nil_of_mem hp])]
    simp only
    by_cases hallU : ((paths.flatMap (readMetaAudit store)).dedup).isEmpty
    · rw [if_pos hallU]
      have hnil : paths.flatMap (readMetaAudit store) = [] := by
        have := List.isEmpty_iff.mp hallU
        rwa [List.dedup_eq_nil] at this
      constructor
      · intro h
        exact ⟨p, hp, h⟩
      · rintro ⟨q, hq, hmem⟩
        have : s ∈ paths.flatMap (readMetaAudit store) := List.mem_flatMap.mpr ⟨q, hq, hmem⟩
        rw [hnil] at this
        cases this
    · rw [if_neg hallU]
      set U := ((paths.flatMap (readMetaAudit store)).dedup).mergeSort
        (fun x y => decide (x ≤ y)) with hUdef
      have hUmem : ∀ e, e ∈ U ↔ e ∈ paths.flatMap (readMetaAudit store) := by
        intro e
        rw [hUdef, List.mem_mergeSort, List.mem_dedup]
      rw [mem_read_fold_append (fun e he => hUprop e ((hUmem e).mp he)) paths store p hp s]
      constructor
      · rintro (h | h)
        · exact ⟨p, hp, h⟩
        · exact (hflat s).mp ((hUmem s).mp h)
      · intro h
        exact Or.inr ((hUmem s).mpr ((hflat s).mpr h))
  · unfold syncAuditSnap
    rw [mem_read_fold_append hUprop paths store p hp s]
    constructor
    · rintro (h | h)
      · exact ⟨p, hp, h⟩
      · exact (hflat s).mp h
    · intro h
      exact Or.inr ((hflat s).mpr h)

/-- C4 witness: two files, each holding one entry; after sync each file
must contain both. -/
theorem C4_witness :
    ("y" ∈ readMetaAudit (syncMetaAuditStreams
          (fun q => if q = "a.bak" then ["x"] else if q = "b.bak" then ["y"] else [])
          ["a.bak", "b.bak"]) "a.bak"
        ↔ ∃ q ∈ ["a.bak", "b.bak"], "y" ∈ readMetaAudit
            (fun q => if q = "a.bak" then ["x"] else if q = "b.bak" then ["y"] else []) q)
      ∧ ("y" ∈ readMetaAudit (syncAuditSnap
          (fun q => if q = "a.bak" then ["x"] else if q = "b.bak" then ["y"] else [])
          ["a.bak", "b.bak"]) "a.bak"
        ↔ ∃ q ∈ ["a.bak", "b.bak"], "y" ∈ readMetaAudit
            (fun q => if q = "a.bak" then ["x"] else if q = "b.bak" then ["y"] else []) q) :=
  C4_sync_union
    (fun q => if q = "a.bak" then ["x"] else if q = "b.bak" then ["y"] else [])
    ["a.bak", "b.bak"] "a.bak" (by decide) "y"

/-! ## C6: descriptor shapes over the summary sequence -/

theorem changeSign_cases (older newer : List String) :
    changeSign older newer = "" ∨ changeSign older newer = "+"
      ∨ changeSign older newer = "-" := by
  unfold changeSign
  split
  · right; left; rfl
  · split
    · right; right; rfl
    · left; rfl

theorem changeDescriptorSnap_shape (older newer : List String) :
    matchesChangeRegex (changeDescriptorSnap older newer) = true := by
  unfold changeDescriptorSnap
  exact matchesChangeRegex_descriptor _ _ (changeSign_cases older newer)

theorem changeDescriptorDVE_shape (older newer : List String) :
    matchesChangeRegex (changeDescriptorDVE older newer) = true := by
  unfold changeDescriptorDVE
  exact matchesChangeRegex_descriptor _ _ (changeSign_cases older newer)

theorem diffCountsOf_last (desc : List String → List String → String)
    (reads : List (Option (List String))) (hne : reads ≠ []) :
    (diffCountsOf desc reads)[reads.length - 1]? = some "N/A" := by
  have hpos : 0 < reads.length := List.length_pos.mpr hne
  unfold diffCountsOf
  rw [List.getElem?_map, List.getElem?_range (by omega)]
  simp

theorem diffCountsOf_mid (desc : List String → List String → String)
    (reads : List (Option (List String))) (i : Nat) (cur older : List String)
    (hc : reads[i]? = some (some cur)) (ho : reads[i + 1]? = some (some older)) :
    (diffCountsOf desc reads)[i]? = some (desc older cur) := by
  have hlt : i + 1 < reads.length := (List.getElem?_eq_some.mp ho).1
  have hne : i ≠ reads.length - 1 := by omega
  unfold diffCountsOf
  rw [List.getElem?_map, List.getElem?_range (by omega)]
  simp only [Option.map_some']
  rw [if_neg hne]
  have h1 : reads.getD i none = some cur := by
    rw [List.getD_eq_getElem?_getD, hc]; rfl
  have h2 : reads.getD (i + 1) none = some older := by
    rw [List.getD_eq_getElem?_getD, ho]; rfl
  rw [h1, h2]

/-- C6: in every summary sequence built by either launcher, the
chronologically oldest (last, newest-first) entry's change descriptor is
the literal `"N/A"` — including for a single-file set — and every other
entry whose two files are read successfully receives a descriptor
matching `^[+-]?\d+ lines$`. -/
theorem C6_descriptor_shapes (reads : List (Option (List String))) :
    (reads ≠ [] →
      (diffCountsOf changeDescriptorSnap reads)[reads.length - 1]? = some "N/A"
        ∧ (diffCountsOf changeDescriptorDVE reads)[reads.length - 1]? = some "N/A")
      ∧ ∀ i cur older, reads[i]? = some (some cur) → reads[i + 1]? = some (some older) →
          ∃ dS dD, (diffCountsOf changeDescriptorSnap reads)[i]? = some dS
            ∧ matchesChangeRegex dS = true
            ∧ (diffCountsOf changeDescriptorDVE reads)[i]? = some dD
            ∧ matchesChangeRegex dD = true := by
  constructor
  · intro hne
    exact ⟨diffCountsOf_last _ reads hne, diffCountsOf_last _ reads hne⟩
  · intro i cur older hc ho
    exact ⟨changeDescriptorSnap older cur, changeDescriptorDVE older cur,
      diffCountsOf_mid _ reads i cur older hc ho,
      changeDescriptorSnap_shape older cur,
      diffCountsOf_mid _ reads i cur older hc ho,
      changeDescriptorDVE_shape older cur⟩

/-- C6 witness: a two-entry set (newer `b`, older `a`). -/
theorem C6_witness :
    ((diffCountsOf changeDescriptorSnap [some ["b\n"], some ["a\n"]])[
        ([some ["b\n"], some ["a\n"]] : List (Option (List String))).length - 1]?
          = some "N/A"
      ∧ (diffCountsOf changeDescriptorDVE [some ["b\n"], some ["a\n"]])[
        ([some ["b\n"], some ["a\n"]] : List (Option (List String))).length - 1]?
          = some "N/A")
      ∧ ∃ dS dD,
        (diffCountsOf changeDescriptorSnap [some ["b\n"], some ["a\n"]])[0]? = some dS
          ∧ matchesChangeRegex dS = true
          ∧ (diffCountsOf changeDescriptorDVE [some ["b\n"], some ["a\n"]])[0]? = some dD
          ∧ matchesChangeRegex dD = true :=
  ⟨(C6_descriptor_shapes [some ["b\n"], some ["a\n"]]).1 (by decide),
    (C6_descriptor_shapes [some ["b\n"], some ["a\n"]]).2 0 ["b\n"] ["a\n"] rfl rfl⟩

/-! ## C10: identical files diff to the empty list -/

theorem commonPrefixLen_self (l : List String) : commonPrefixLen l l = l.length := by
  induction l with
  | nil => rfl
  | cons x xs ih => simp [commonPrefixLen, ih]

theorem commonPrefixLen_le_left : ∀ (x y : List String), commonPrefixLen x y ≤ x.length := by
  intro x
  induction x with
  | nil => intro y; cases y <;> simp [commonPrefixLen]
  | cons a as ih =>
    intro y
    cases y with
    | nil => simp [commonPrefixLen]
    | cons b bs =>
      simp only [commonPrefixLen]
      split
      · simpa using ih bs
      · simp

theorem runLen_le (a b : List String) (ahi bhi i j : Nat) :
    runLen a b ahi bhi i j ≤ ahi - i := by
  unfold runLen
  calc commonPrefixLen ((a.take ahi).drop i) ((b.take bhi).drop j)
      ≤ ((a.take ahi).drop i).length := commonPrefixLen_le_left _ _
    _ ≤ ahi - i := by
        rw [List.length_drop, List.length_take]
        omega

theorem innerFold_keep (a b : List String) (ahi bhi i : Nat)
    (best : Nat × Nat × Nat)
    (hbest : ∀ j, runLen a b ahi bhi i j ≤ best.2.2) :
    ∀ js : List Nat,
      js.foldl (fun best j =>
        if best.2.2 < runLen a b ahi bhi i j then (i, j, runLen a b ahi bhi i j)
        else best) best = best := by
  intro js
  induction js with
  | nil => rfl
  | cons j js ih =>
    rw [List.foldl_cons]
    have hnot : ¬ best.2.2 < runLen a b ahi bhi i j := Nat.not_lt.mpr (hbest j)
    simp only [if_neg hnot]
    exact ih

theorem outerFold_keep (a b : List String) (ahi bhi : Nat) (js : List Nat)
    (best : Nat × Nat × Nat)
    (hbest : ∀ i j, runLen a b ahi bhi i j ≤ best.2.2) :
    ∀ is : List Nat,
      is.foldl (fun best i =>
        js.foldl (fun best j =>
          if best.2.2 < runLen a b ahi bhi i j then (i, j, runLen a b ahi bhi i j)
          else best) best) best = best := by
  intro is
  induction is with
  | nil => rfl
  | cons i is ih =>
    rw [List.foldl_cons]
    rw [innerFold_keep a b ahi bhi i best (hbest i)]
    exact ih

theorem findLongestMatch_self (l : List String) (hl : l ≠ []) :
    findLongestMatch l l 0 l.length 0 l.length = (0, 0, l.length) := by
  obtain ⟨n, hn⟩ : ∃ n, l.length = n + 1 := by
    cases hlc : l with
    | nil => exact absurd hlc hl
    | cons x xs => exact ⟨xs.length, by simp⟩
  have hrange : List.range' 0 (l.length - 0) = 0 :: List.range' 1 n := by
    rw [Nat.sub_zero, hn, List.range'_succ]
  have hrun00 : runLen l l l.length l.length 0 0 = l.length := by
    unfold runLen
    rw [List.drop_zero, List.take_length]
    exact commonPrefixLen_self l
  unfold findLongestMatch
  rw [hrange, List.foldl_cons, List.foldl_cons]
  simp only [hrun00]
  rw [if_pos (show ((0, 0, 0) : Nat × Nat × Nat).2.2 < l.length by simp [hn])]
  rw [innerFold_keep l l l.length l.length 0 (0, 0, l.length)
    (fun j => by simpa using runLen_le l l l.length l.length 0 j)]
  rw [outerFold_keep l l l.length l.length (0 :: List.range' 1 n) (0, 0, l.length)
    (fun i j => by
      have := runLen_le l l l.length l.length i j
      simp only
      omega)]

theorem findLongestMatch_empty {a b : List String} {alo ahi blo bhi : Nat}
    (h : ahi - alo = 0) : findLongestMatch a b alo ahi blo bhi = (alo, blo, 0) := by
  unfold findLongestMatch
  rw [h, List.range'_zero, List.foldl_nil]

theorem matchingBlocksAux_empty {a b : List String} {fuel alo ahi blo bhi : Nat}
    (h : ahi - alo = 0) :
    matchingBlocksAux a b fuel alo ahi blo bhi = [] := by
  cases fuel with
  | zero => rfl
  | succ fuel =>
    simp only [matchingBlocksAux]
    rw [findLongestMatch_empty h]
    simp

theorem getMatchingBlocks_self (l : List String) :
    getMatchingBlocks l l
      = if l.length = 0 then [(0, 0, 0)]
        else [(0, 0, l.length), (l.length, l.length, 0)] := by
  by_cases h0 : l.length = 0
  · rw [if_pos h0]
    unfold getMatchingBlocks
    rw [matchingBlocksAux_empty (by omega)]
    simp only [mergeAdjacentBlocks, h0]
    simp
  · rw [if_neg h0]
    have hl : l ≠ [] := by
      intro h; rw [h] at h0; exact h0 rfl
    unfold getMatchingBlocks
    have hfuel : l.length + l.length + 1 = (l.length + l.length) + 1 := rfl
    rw [hfuel]
    simp only [matchingBlocksAux]
    rw [findLongestMatch_self l hl]
    simp only
    rw [if_neg h0]
    rw [matchingBlocksAux_empty (by omega), matchingBlocksAux_empty (by omega)]
    simp only [List.nil_append]
    simp only [mergeAdjacentBlocks]
    simp [h0]

theorem getOpcodes_self (l : List String) :
    getOpcodes l l
      = if l.length = 0 then [] else [(OpTag.equal, 0, l.length, 0, l.length)] := by
  unfold getOpcodes
  rw [getMatchingBlocks_self]
  by_cases h0 : l.length = 0
  · rw [if_pos h0, if_pos h0]
    simp [getOpcodesAux]
  · rw [if_neg h0, if_neg h0]
    simp [getOpcodesAux, h0]

theorem groupedOpcodes_self (l : List String) :
    groupedOpcodes 3 (getOpcodes l l) = [] := by
  rw [getOpcodes_self]
  by_cases h0 : l.length = 0
  · rw [if_pos h0]
    decide
  · rw [if_neg h0]
    unfold groupedOpcodes
    rw [if_neg (by simp)]
    simp only [mapHead, mapLast, trimHeadEqual, trimLastEqual]
    have hmax : max 0 (l.length - 3) = l.length - 3 := by omega
    have hmin : min l.length (l.length - 3 + 3) = l.length := by omega
    rw [hmax, hmin]
    simp only [groupLoop]
    rw [if_neg (by
      rintro ⟨-, hgt⟩
      omega)]
    simp only [List.nil_append, groupLoop]
    rw [if_neg (by simp [isSingleEqual])]

theorem unifiedDiff_self (l : List String) : unifiedDiff l l = [] := by
  unfold unifiedDiff
  rw [groupedOpcodes_self]
  rfl

theorem specChangeCount_self (l : List String) : specChangeCount l l = 0 := by
  unfold specChangeCount
  rw [getOpcodes_self]
  by_cases h0 : l.length = 0
  · rw [if_pos h0]; rfl
  · rw [if_neg h0]; simp [specOpCount]

/-- C10: when two consecutive entries in the newest-first ordering have
byte-identical content (the same line list), the newer entry's change
descriptor is exactly `"0 lines"` with no sign, in both launchers. -/
theorem C10_identical_consecutive (reads : List (Option (List String))) (i : Nat)
    (content : List String)
    (hc : reads[i]? = some (some content)) (ho : reads[i + 1]? = some (some content)) :
    (diffCountsOf changeDescriptorSnap reads)[i]? = some "0 lines"
      ∧ (diffCountsOf changeDescriptorDVE reads)[i]? = some "0 lines" := by
  have hsign : changeSign content content = "" := by
    unfold changeSign
    simp
  have hS : changeDescriptorSnap content content = "0 lines" := by
    unfold changeDescriptorSnap
    rw [unifiedDiff_self, hsign]
    decide
  have hD : changeDescriptorDVE content content = "0 lines" := by
    unfold changeDescriptorDVE
    rw [unifiedDiff_self, hsign]
    decide
  exact ⟨by rw [diffCountsOf_mid _ reads i content content hc ho, hS],
    by rw [diffCountsOf_mid _ reads i content content hc ho, hD]⟩

/-- C10 witness: two identical one-line files. -/
theorem C10_witness :
    (diffCountsOf changeDescriptorSnap [some ["x\n"], some ["x\n"]])[0]? = some "0 lines"
      ∧ (diffCountsOf changeDescriptorDVE [some ["x\n"], some ["x\n"]])[0]? = some "0 lines" :=
  C10_identical_consecutive [some ["x\n"], some ["x\n"]] 0 ["x\n"] rfl rfl

/-! ## C1: machinery for the change-count correction

The matching blocks produced by the `SequenceMatcher` model are genuine,
ordered matches (`ChainB`); from this, two unequal line lists always
produce at least one non-`equal` opcode, hence a non-empty diff with its
two header lines — the key to the off-by-one in `SnapVersion+Plus`'s
`max(0, count - 3)` adjustment. -/

theorem pySlice_eq_drop_take (x : List String) (m n : Nat) :
    pySlice x m n = (x.drop m).take (n - m) := by
  unfold pySlice
  rw [List.drop_take]

theorem pySlice_self_nil (x : List String) (m : Nat) : pySlice x m m = [] := by
  rw [pySlice_eq_drop_take]
  simp

theorem commonPrefixLen_le_right : ∀ (x y : List String), commonPrefixLen x y ≤ y.length := by
  intro x
  induction x with
  | nil => intro y; cases y <;> simp [commonPrefixLen]
  | cons a as ih =>
    intro y
    cases y with
    | nil => simp [commonPrefixLen]
    | cons b bs =>
      simp only [commonPrefixLen]
      split
      · simpa using ih bs
      · simp

theorem commonPrefixLen_take : ∀ (x y : List String),
    x.take (commonPrefixLen x y) = y.take (commonPrefixLen x y) := by
  intro x
  induction x with
  | nil => intro y; cases y <;> simp [commonPrefixLen]
  | cons a as ih =>
    intro y
    cases y with
    | nil => simp [commonPrefixLen]
    | cons b bs =>
      simp only [commonPrefixLen]
      split
      · next hab =>
        subst hab
        simp [List.take_succ_cons, ih bs]
      · simp

theorem runLen_le_right (a b : List String) (ahi bhi i j : Nat) :
    runLen a b ahi bhi i j ≤ bhi - j := by
  unfold runLen
  calc commonPrefixLen ((a.take ahi).drop i) ((b.take bhi).drop j)
      ≤ ((b.take bhi).drop j).length := commonPrefixLen_le_right _ _
    _ ≤ bhi - j := by
        rw [List.length_drop, List.length_take]
        omega

/-- The run found at `(i, j)` really is a common slice. -/
theorem runLen_slice_eq (a b : List String) (ahi bhi i j : Nat) :
    pySlice a i (i + runLen a b ahi bhi i j)
      = pySlice b j (j + runLen a b ahi bhi i j) := by
  have htake := commonPrefixLen_take ((a.take ahi).drop i) ((b.take bhi).drop j)
  have hka : runLen a b ahi bhi i j ≤ ahi - i := runLen_le a b ahi bhi i j
  have hkb : runLen a b ahi bhi i j ≤ bhi - j := runLen_le_right a b ahi bhi i j
  have ha : ((a.take ahi).drop i).take (runLen a b ahi bhi i j)
      = (a.drop i).take (runLen a b ahi bhi i j) := by
    rw [List.drop_take, List.take_take]
    congr 1
    omega
  have hb : ((b.take bhi).drop j).take (runLen a b ahi bhi i j)
      = (b.drop j).take (runLen a b ahi bhi i j) := by
    rw [List.drop_take, List.take_take]
    congr 1
    omega
  rw [pySlice_eq_drop_take, pySlice_eq_drop_take,
    Nat.add_sub_cancel_left, Nat.add_sub_cancel_left]
  rw [← ha, ← hb]
  exact htake

theorem foldl_invariant {α β : Type} (P : β → Prop) (f : β → α → β) :
    ∀ (l : List α) (init : β), P init → (∀ acc x, x ∈ l → P acc → P (f acc x)) →
      P (l.foldl f init) := by
  intro l
  induction l with
  | nil => intro init h _; exact h
  | cons x xs ih =>
    intro init h hstep
    exact ih _ (hstep init x (by simp) h)
      (fun acc y hy hacc => hstep acc y (by simp [hy]) hacc)

/-- A candidate block within the search window, with a genuine match. -/
def GoodBlock (a b : List String) (alo ahi blo bhi : Nat) (r : Nat × Nat × Nat) : Prop :=
  alo ≤ r.1 ∧ blo ≤ r.2.1 ∧ r.1 + r.2.2 ≤ ahi ∧ r.2.1 + r.2.2 ≤ bhi
    ∧ pySlice a r.1 (r.1 + r.2.2) = pySlice b r.2.1 (r.2.1 + r.2.2)

theorem findLongestMatch_spec (a b : List String) (alo ahi blo bhi : Nat)
    (ha : alo ≤ ahi) (hb : blo ≤ bhi) :
    GoodBlock a b alo ahi blo bhi (findLongestMatch a b alo ahi blo bhi) := by
  unfold findLongestMatch
  apply foldl_invariant (P := GoodBlock a b alo ahi blo bhi)
  · refine ⟨le_refl _, le_refl _, by simpa using ha, by simpa using hb, ?_⟩
    simp only
    rw [Nat.add_zero, Nat.add_zero, pySlice_self_nil, pySlice_self_nil]
  · intro acc i hi hacc
    apply foldl_invariant (P := GoodBlock a b alo ahi blo bhi)
    · exact hacc
    · intro acc2 j hj hacc2
      by_cases hlt : acc2.2.2 < runLen a b ahi bhi i j
      · rw [if_pos hlt]
        have hia : alo ≤ i ∧ i < alo + (ahi - alo) := List.mem_range'_1.mp hi
        have hjb : blo ≤ j ∧ j < blo + (bhi - blo) := List.mem_range'_1.mp hj
        have hka := runLen_le a b ahi bhi i j
        have hkb := runLen_le_right a b ahi bhi i j
        exact ⟨hia.1, hjb.1, by simp only; omega, by simp only; omega,
          runLen_slice_eq a b ahi bhi i j⟩
      · rw [if_neg hlt]
        exact hacc2

/-- The blocks form an ordered chain of genuine matches starting no
earlier than `(i, j)` and ending within `(hi, hj)`. -/
def ChainB (a b : List String) : Nat → Nat → Nat → Nat → List Block → Prop
  | _, _, _, _, [] => True
  | i, j, hi, hj, (ai, bj, sz) :: rest =>
    i ≤ ai ∧ j ≤ bj ∧ ai + sz ≤ hi ∧ bj + sz ≤ hj
      ∧ pySlice a ai (ai + sz) = pySlice b bj (bj + sz)
      ∧ ChainB a b (ai + sz) (bj + sz) hi hj rest

theorem ChainB_mono_start {a b : List String} {hi hj : Nat} :
    ∀ {L : List Block} {i j i' j' : Nat}, i' ≤ i → j' ≤ j →
      ChainB a b i j hi hj L → ChainB a b i' j' hi hj L := by
  intro L
  cases L with
  | nil => intro i j i' j' _ _ _; trivial
  | cons blk rest =>
    intro i j i' j' hii hjj h
    obtain ⟨ai, bj, sz⟩ := blk
    simp only [ChainB] at h ⊢
    obtain ⟨h1, h2, h3, h4, h5, h6⟩ := h
    exact ⟨le_trans hii h1, le_trans hjj h2, h3, h4, h5, h6⟩

theorem ChainB_append {a b : List String} {m n hi hj : Nat} :
    ∀ {L₁ : List Block} {i j : Nat}, ChainB a b i j m n L₁ → i ≤ m → j ≤ n →
      m ≤ hi → n ≤ hj →
      ∀ {L₂ : List Block}, ChainB a b m n hi hj L₂ →
      ChainB a b i j hi hj (L₁ ++ L₂) := by
  intro L₁
  induction L₁ with
  | nil =>
    intro i j _ him hjn _ _ L₂ h2
    exact ChainB_mono_start him hjn h2
  | cons blk rest ih =>
    intro i j h1 him hjn hmh hnh L₂ h2
    obtain ⟨ai, bj, sz⟩ := blk
    rw [List.cons_append]
    simp only [ChainB] at h1 ⊢
    obtain ⟨h1a, h1b, h1c, h1d, h1e, h1f⟩ := h1
    exact ⟨h1a, h1b, le_trans h1c hmh, le_trans h1d hnh, h1e,
      ih h1f (by omega) (by omega) hmh hnh h2⟩

theorem matchingBlocksAux_chain (a b : List String) :
    ∀ (fuel alo ahi blo bhi : Nat), alo ≤ ahi → blo ≤ bhi →
      ChainB a b alo blo ahi bhi (matchingBlocksAux a b fuel alo ahi blo bhi) := by
  intro fuel
  induction fuel with
  | zero => intro alo ahi blo bhi _ _; trivial
  | succ fuel ih =>
    intro alo ahi blo bhi ha hb
    simp only [matchingBlocksAux]
    have hspec := findLongestMatch_spec a b alo ahi blo bhi ha hb
    obtain ⟨hs1, hs2, hs3, hs4, hs5⟩ := hspec
    by_cases hk : (findLongestMatch a b alo ahi blo bhi).2.2 = 0
    · rw [if_pos hk]
      trivial
    · rw [if_neg hk]
      apply ChainB_append (m := (findLongestMatch a b alo ahi blo bhi).1)
        (n := (findLongestMatch a b alo ahi blo bhi).2.1)
      · exact ih alo (findLongestMatch a b alo ahi blo bhi).1 blo
          (findLongestMatch a b alo ahi blo bhi).2.1 hs1 hs2
      · exact hs1
      · exact hs2
      · omega
      · omega
      · simp only [ChainB]
        exact ⟨le_refl _, le_refl _, hs3, hs4, hs5,
          ih _ ahi _ bhi hs3 hs4⟩

theorem mergeAdjacentBlocks_chain {a b : List String} {hi hj : Nat} :
    ∀ (blocks : List Block) (i1 j1 k1 i j : Nat),
      i ≤ i1 → j ≤ j1 → i1 + k1 ≤ hi → j1 + k1 ≤ hj →
      pySlice a i1 (i1 + k1) = pySlice b j1 (j1 + k1) →
      ChainB a b (i1 + k1) (j1 + k1) hi hj blocks →
      ChainB a b i j hi hj (mergeAdjacentBlocks i1 j1 k1 blocks) := by
  intro blocks
  induction blocks with
  | nil =>
    intro i1 j1 k1 i j hii hjj hbi hbj hgen _
    simp only [mergeAdjacentBlocks]
    by_cases hk : k1 ≠ 0
    · rw [if_pos hk]
      simp only [ChainB]
      exact ⟨hii, hjj, hbi, hbj, hgen, trivial⟩
    · rw [if_neg hk]
      trivial
  | cons blk rest ih =>
    intro i1 j1 k1 i j hii hjj hbi hbj hgen hchain
    obtain ⟨i2, j2, k2⟩ := blk
    simp only [ChainB] at hchain
    obtain ⟨hc1, hc2, hc3, hc4, hc5, hc6⟩ := hchain
    simp only [mergeAdjacentBlocks]
    by_cases hadj : i1 + k1 = i2 ∧ j1 + k1 = j2
    · rw [if_pos hadj]
      obtain ⟨hadj1, hadj2⟩ := hadj
      apply ih i1 j1 (k1 + k2) i j hii hjj (by omega) (by omega)
      · -- combined genuine slice
        have hsa : pySlice a i1 (i1 + (k1 + k2))
            = pySlice a i1 (i1 + k1) ++ pySlice a (i1 + k1) (i1 + k1 + k2) := by
          rw [pySlice_eq_drop_take, pySlice_eq_drop_take, pySlice_eq_drop_take]
          rw [Nat.add_sub_cancel_left, Nat.add_sub_cancel_left, Nat.add_sub_cancel_left]
          rw [List.take_add]
          congr 1
          rw [List.drop_drop]
        have hsb : pySlice b j1 (j1 + (k1 + k2))
            = pySlice b j1 (j1 + k1) ++ pySlice b (j1 + k1) (j1 + k1 + k2) := by
          rw [pySlice_eq_drop_take, pySlice_eq_drop_take, pySlice_eq_drop_take]
          rw [Nat.add_sub_cancel_left, Nat.add_sub_cancel_left, Nat.add_sub_cancel_left]
          rw [List.take_add]
          congr 1
          rw [List.drop_drop]
        rw [hsa, hsb, hgen]
        congr 1
        rw [hadj1, hadj2]
        exact hc5
      · -- chain for the rest from (i1 + (k1 + k2), j1 + (k1 + k2))
        have he1 : i1 + (k1 + k2) = i2 + k2 := by omega
        have he2 : j1 + (k1 + k2) = j2 + k2 := by omega
        rw [he1, he2]
        exact hc6
    · rw [if_neg hadj]
      have hrest : ChainB a b (i1 + k1) (j1 + k1) hi hj
          (mergeAdjacentBlocks i2 j2 k2 rest) :=
        ih i2 j2 k2 (i1 + k1) (j1 + k1) hc1 hc2 hc3 hc4 hc5 hc6
      by_cases hk : k1 ≠ 0
      · rw [if_pos hk]
        simp only [List.singleton_append, ChainB]
        exact ⟨hii, hjj, hbi, hbj, hgen, hrest⟩
      · rw [if_neg hk]
        rw [List.nil_append]
        exact ChainB_mono_start (by omega) (by omega) hrest

theorem getMatchingBlocks_chain (a b : List String) :
    ChainB a b 0 0 a.length b.length (getMatchingBlocks a b) := by
  unfold getMatchingBlocks
  apply ChainB_append (m := a.length) (n := b.length)
  · apply mergeAdjacentBlocks_chain _ 0 0 0 0 0 (le_refl 0) (le_refl 0)
      (by omega) (by omega)
    · rw [pySlice_self_nil, pySlice_self_nil]
    · simpa using matchingBlocksAux_chain a b (a.length + b.length + 1) 0 a.length 0 b.length
        (Nat.zero_le _) (Nat.zero_le _)
  · exact Nat.zero_le _
  · exact Nat.zero_le _
  · exact le_refl _
  · exact le_refl _
  · simp only [ChainB]
    refine ⟨le_refl _, le_refl _, by omega, by omega, ?_, trivial⟩
    rw [Nat.add_zero, Nat.add_zero, pySlice_self_nil, pySlice_self_nil]

/-- If the walk over a genuine ordered block chain that contains the
terminal sentinel produces only `equal` opcodes, the two sequences are
equal. -/
theorem getOpcodesAux_all_equal {a b : List String} :
    ∀ (blocks : List Block) (i j : Nat),
      ChainB a b i j a.length b.length blocks →
      a.take i = b.take j →
      (a.length, b.length, 0) ∈ blocks →
      (∀ op ∈ getOpcodesAux i j blocks, op.1 = OpTag.equal) →
      a = b := by
  intro blocks
  induction blocks with
  | nil => intro i j _ _ hterm _; cases hterm
  | cons blk rest ih =>
    intro i j hchain hinv hterm hall
    obtain ⟨ai, bj, sz⟩ := blk
    simp only [ChainB] at hchain
    obtain ⟨hia, hjb, hbound1, hbound2, hgen, hrest⟩ := hchain
    have hiai : ¬ i < ai := by
      intro hlt
      by_cases hjlt : j < bj
      · have hmem : (OpTag.replace, i, ai, j, bj)
            ∈ getOpcodesAux i j ((ai, bj, sz) :: rest) := by
          simp only [getOpcodesAux]
          rw [if_pos ⟨hlt, hjlt⟩]
          simp
        have := hall _ hmem
        simp at this
      · have hmem : (OpTag.delete, i, ai, j, bj)
            ∈ getOpcodesAux i j ((ai, bj, sz) :: rest) := by
          simp only [getOpcodesAux]
          rw [if_neg (by tauto), if_pos hlt]
          simp
        have := hall _ hmem
        simp at this
    have hjbj : ¬ j < bj := by
      intro hlt
      have hmem : (OpTag.insert, i, ai, j, bj)
          ∈ getOpcodesAux i j ((ai, bj, sz) :: rest) := by
        simp only [getOpcodesAux]
        rw [if_neg (by tauto), if_neg hiai, if_pos hlt]
        simp
      have := hall _ hmem
      simp at this
    have hieq : i = ai := by omega
    have hjeq : j = bj := by omega
    subst hieq
    subst hjeq
    have hinv2 : a.take (i + sz) = b.take (j + sz) := by
      have hga : pySlice a i (i + sz) = (a.drop i).take sz := by
        rw [pySlice_eq_drop_take, Nat.add_sub_cancel_left]
      have hgb : pySlice b j (j + sz) = (b.drop j).take sz := by
        rw [pySlice_eq_drop_take, Nat.add_sub_cancel_left]
      rw [List.take_add, List.take_add, hinv, ← hga, ← hgb, hgen]
    rcases List.mem_cons.mp hterm with hhead | htail
    · rw [Prod.mk.injEq, Prod.mk.injEq] at hhead
      obtain ⟨hae, hbe, _⟩ := hhead
      subst hae
      subst hbe
      rw [List.take_length, List.take_length] at hinv
      exact hinv
    · apply ih (i + sz) (j + sz) hrest hinv2 htail
      intro op hop
      apply hall
      simp only [getOpcodesAux]
      exact List.mem_append_right _ hop

/-- Two unequal line lists always yield at least one non-`equal` opcode. -/
theorem exists_nonequal_of_ne {a b : List String} (h : a ≠ b) :
    ∃ op ∈ getOpcodes a b, op.1 ≠ OpTag.equal := by
  by_contra hall
  push_neg at hall
  apply h
  apply getOpcodesAux_all_equal (getMatchingBlocks a b) 0 0
    (getMatchingBlocks_chain a b) rfl
  · unfold getMatchingBlocks
    exact List.mem_append_right _ (List.mem_singleton.mpr rfl)
  · intro op hop
    exact hall op hop

/-! Grouping preserves the non-`equal` opcodes and their change counts:
splitting and trimming only ever touch `equal` opcodes. -/

theorem trimHeadEqual_tag (n : Nat) (op : Opcode) : (trimHeadEqual n op).1 = op.1 := by
  obtain ⟨tag, i1, i2, j1, j2⟩ := op
  cases tag <;> rfl

theorem trimLastEqual_tag (n : Nat) (op : Opcode) : (trimLastEqual n op).1 = op.1 := by
  obtain ⟨tag, i1, i2, j1, j2⟩ := op
  cases tag <;> rfl

theorem trimHeadEqual_of_ne (n : Nat) (op : Opcode) (h : ¬ op.1 = OpTag.equal) :
    trimHeadEqual n op = op := by
  obtain ⟨tag, i1, i2, j1, j2⟩ := op
  cases tag <;> first | rfl | exact absurd rfl h

theorem trimLastEqual_of_ne (n : Nat) (op : Opcode) (h : ¬ op.1 = OpTag.equal) :
    trimLastEqual n op = op := by
  obtain ⟨tag, i1, i2, j1, j2⟩ := op
  cases tag <;> first | rfl | exact absurd rfl h

theorem specOpCount_eq_zero {a b : List String} {op : Opcode}
    (h : op.1 = OpTag.equal) : specOpCount a b op = 0 := by
  obtain ⟨tag, i1, i2, j1, j2⟩ := op
  cases tag <;> simp_all [specOpCount]

theorem specOpCount_trimHead (a b : List String) (n : Nat) (op : Opcode) :
    specOpCount a b (trimHeadEqual n op) = specOpCount a b op := by
  by_cases h : op.1 = OpTag.equal
  · rw [specOpCount_eq_zero (by rw [trimHeadEqual_tag]; exact h),
      specOpCount_eq_zero h]
  · rw [trimHeadEqual_of_ne n op h]

theorem specOpCount_trimLast (a b : List String) (n : Nat) (op : Opcode) :
    specOpCount a b (trimLastEqual n op) = specOpCount a b op := by
  by_cases h : op.1 = OpTag.equal
  · rw [specOpCount_eq_zero (by rw [trimLastEqual_tag]; exact h),
      specOpCount_eq_zero h]
  · rw [trimLastEqual_of_ne n op h]

theorem isSingleEqual_filter {g : List Opcode} (h : isSingleEqual g = true) :
    g.filter (fun op => decide (op.1 ≠ OpTag.equal)) = [] := by
  unfold isSingleEqual at h
  split at h
  · simp
  · cases h

theorem isSingleEqual_sum (a b : List String) {g : List Opcode}
    (h : isSingleEqual g = true) : (g.map (specOpCount a b)).sum = 0 := by
  unfold isSingleEqual at h
  split at h
  · simp [specOpCount]
  · cases h

theorem groupLoop_join_filter (n : Nat) :
    ∀ (codes group : List Opcode),
      ((groupLoop n group codes).flatten).filter (fun op => decide (op.1 ≠ OpTag.equal))
        = (group ++ codes).filter (fun op => decide (op.1 ≠ OpTag.equal)) := by
  intro codes
  induction codes with
  | nil =>
    intro group
    simp only [groupLoop]
    by_cases hg : (!group.isEmpty && !isSingleEqual group) = true
    · rw [if_pos hg]
      simp
    · rw [if_neg hg]
      rw [Bool.and_eq_true, Bool.not_eq_true', Bool.not_eq_true'] at hg
      push_neg at hg
      simp only [List.flatten_nil, List.filter_nil, List.append_nil]
      by_cases hge : group.isEmpty = true
      · rw [List.isEmpty_iff.mp hge]
        rfl
      · have hgef : group.isEmpty = false := by
          cases h : group.isEmpty
          · rfl
          · exact absurd h hge
        have hse : isSingleEqual group = true := by
          have hne := hg hgef
          cases h2 : isSingleEqual group
          · exact absurd h2 hne
          · rfl
        rw [isSingleEqual_filter hse]
  | cons op rest ih =>
    intro group
    simp only [groupLoop]
    by_cases hsplit : op.1 = OpTag.equal ∧ op.2.2.1 - op.2.1 > n + n
    · rw [if_pos hsplit]
      simp only [List.flatten_cons, List.filter_append]
      rw [ih [trimHeadEqual n op]]
      have htrimL : decide ((trimLastEqual n op).1 ≠ OpTag.equal) = false := by
        simp [trimLastEqual_tag, hsplit.1]
      have htrimH : decide ((trimHeadEqual n op).1 ≠ OpTag.equal) = false := by
        simp [trimHeadEqual_tag, hsplit.1]
      have hop : decide (op.1 ≠ OpTag.equal) = false := by
        simp [hsplit.1]
      simp [List.filter_append, List.filter_cons, trimLastEqual_tag, trimHeadEqual_tag,
        hsplit.1]
    · rw [if_neg hsplit]
      rw [ih (group ++ [op])]
      simp [List.filter_append, List.filter_cons]

theorem groupLoop_join_sum (a b : List String) (n : Nat) :
    ∀ (codes group : List Opcode),
      (((groupLoop n group codes).flatten).map (specOpCount a b)).sum
        = ((group ++ codes).map (specOpCount a b)).sum := by
  intro codes
  induction codes with
  | nil =>
    intro group
    simp only [groupLoop]
    by_cases hg : (!group.isEmpty && !isSingleEqual group) = true
    · rw [if_pos hg]
      simp
    · rw [if_neg hg]
      simp only [List.flatten_nil, List.map_nil, List.sum_nil, List.append_nil]
      by_cases hge : group.isEmpty = true
      · rw [List.isEmpty_iff.mp hge]
        rfl
      · rw [Bool.and_eq_true, Bool.not_eq_true', Bool.not_eq_true'] at hg
        push_neg at hg
        have hgef : group.isEmpty = false := by
          cases h : group.isEmpty
          · rfl
          · exact absurd h hge
        have hse : isSingleEqual group = true := by
          have hne := hg hgef
          cases h2 : isSingleEqual group
          · exact absurd h2 hne
          · rfl
        rw [isSingleEqual_sum a b hse]
  | cons op rest ih =>
    intro group
    simp only [groupLoop]
    by_cases hsplit : op.1 = OpTag.equal ∧ op.2.2.1 - op.2.1 > n + n
    · rw [if_pos hsplit]
      simp only [List.flatten_cons, List.map_append, List.sum_append]
      rw [ih [trimHeadEqual n op]]
      simp only [List.map_append, List.map_cons, List.map_nil, List.sum_append,
        List.sum_cons, List.sum_nil]
      rw [specOpCount_trimHead, specOpCount_trimLast,
        specOpCount_eq_zero (a := a) (b := b) hsplit.1]
      omega
    · rw [if_neg hsplit]
      rw [ih (group ++ [op])]
      simp [List.map_append, List.sum_append]

theorem filter_nonEq_mapHead :
    ∀ codes : List Opcode, ∀ n : Nat,
      (mapHead (trimHeadEqual n) codes).filter (fun op => decide (op.1 ≠ OpTag.equal))
        = codes.filter (fun op => decide (op.1 ≠ OpTag.equal)) := by
  intro codes n
  cases codes with
  | nil => rfl
  | cons x xs =>
    simp only [mapHead]
    by_cases hx : x.1 = OpTag.equal
    · rw [List.filter_cons, List.filter_cons,
        if_neg (by simp [trimHeadEqual_tag, hx]), if_neg (by simp [hx])]
    · rw [trimHeadEqual_of_ne n x hx]

theorem filter_nonEq_mapLast :
    ∀ codes : List Opcode, ∀ n : Nat,
      (mapLast (trimLastEqual n) codes).filter (fun op => decide (op.1 ≠ OpTag.equal))
        = codes.filter (fun op => decide (op.1 ≠ OpTag.equal)) := by
  intro codes
  induction codes with
  | nil => intro n; rfl
  | cons x xs ih =>
    intro n
    cases xs with
    | nil =>
      simp only [mapLast]
      by_cases hx : x.1 = OpTag.equal
      · rw [List.filter_cons, List.filter_cons,
          if_neg (by simp [trimLastEqual_tag, hx]), if_neg (by simp [hx])]
      · rw [trimLastEqual_of_ne n x hx]
    | cons y ys =>
      show (x :: mapLast (trimLastEqual n) (y :: ys)).filter _ = _
      rw [List.filter_cons, List.filter_cons, ih n]

theorem sum_map_mapHead (a b : List String) :
    ∀ codes : List Opcode, ∀ n : Nat,
      ((mapHead (trimHeadEqual n) codes).map (specOpCount a b)).sum
        = (codes.map (specOpCount a b)).sum := by
  intro codes n
  cases codes with
  | nil => rfl
  | cons x xs =>
    simp only [mapHead, List.map_cons, List.sum_cons]
    rw [specOpCount_trimHead]

theorem sum_map_mapLast (a b : List String) :
    ∀ codes : List Opcode, ∀ n : Nat,
      ((mapLast (trimLastEqual n) codes).map (specOpCount a b)).sum
        = (codes.map (specOpCount a b)).sum := by
  intro codes
  induction codes with
  | nil => intro n; rfl
  | cons x xs ih =>
    intro n
    cases xs with
    | nil =>
      simp only [mapLast, List.map_cons, List.sum_cons]
      rw [specOpCount_trimLast]
    | cons y ys =>
      show ((x :: mapLast (trimLastEqual n) (y :: ys)).map _).sum = _
      simp only [List.map_cons, List.sum_cons]
      rw [ih n]
      simp [List.map_cons, List.sum_cons]

/-! How the two launchers' line predicates behave on each kind of diff
line.  Tagged lines always begin with their tag character, so the raw
`startswith(('+', '-'))` count picks up exactly the tagged lines plus the
two file headers. -/

theorem raw_minus (x : String) :
    (pyStartsWith ("-" ++ x) "+" || pyStartsWith ("-" ++ x) "-") = true := by
  unfold pyStartsWith
  rw [String.data_append]
  show (List.isPrefixOf ['+'] (['-'] ++ x.data) || List.isPrefixOf ['-'] (['-'] ++ x.data)) = true
  simp [List.isPrefixOf]

theorem raw_plus (x : String) :
    (pyStartsWith ("+" ++ x) "+" || pyStartsWith ("+" ++ x) "-") = true := by
  unfold pyStartsWith
  rw [String.data_append]
  show (List.isPrefixOf ['+'] (['+'] ++ x.data) || List.isPrefixOf ['-'] (['+'] ++ x.data)) = true
  simp [List.isPrefixOf]

theorem raw_ctx (x : String) :
    (pyStartsWith (" " ++ x) "+" || pyStartsWith (" " ++ x) "-") = false := by
  unfold pyStartsWith
  rw [String.data_append]
  show (List.isPrefixOf ['+'] ([' '] ++ x.data) || List.isPrefixOf ['-'] ([' '] ++ x.data)) = false
  simp [List.isPrefixOf]

theorem startsWith_hunk_false (g : List Opcode) (p : Char) (ps : List Char)
    (hp : (p == '@') = false) :
    pyStartsWith (hunkLine g) ⟨p :: ps⟩ = false := by
  unfold pyStartsWith hunkLine
  simp only [String.data_append]
  simp [List.append_assoc, List.cons_append, List.isPrefixOf, hp]

theorem raw_hunk (g : List Opcode) :
    (pyStartsWith (hunkLine g) "+" || pyStartsWith (hunkLine g) "-") = false := by
  have h1 : pyStartsWith (hunkLine g) "+" = false :=
    startsWith_hunk_false g '+' [] (by decide)
  have h2 : pyStartsWith (hunkLine g) "-" = false :=
    startsWith_hunk_false g '-' [] (by decide)
  rw [h1, h2]
  rfl

theorem dve_pred_minus (x : String) (hx : pyStartsWith x "--" = false) :
    ((pyStartsWith ("-" ++ x) "+" || pyStartsWith ("-" ++ x) "-")
      && !(pyStartsWith ("-" ++ x) "+++" || pyStartsWith ("-" ++ x) "---")) = true := by
  have h3 : pyStartsWith ("-" ++ x) "---" = false := by
    unfold pyStartsWith at hx ⊢
    rw [String.data_append]
    show List.isPrefixOf ['-', '-', '-'] (['-'] ++ x.data) = false
    have h2 : List.isPrefixOf ['-', '-'] x.data = false := hx
    simp [List.isPrefixOf, h2]
  have h4 : pyStartsWith ("-" ++ x) "+++" = false := by
    unfold pyStartsWith
    rw [String.data_append]
    show List.isPrefixOf ['+', '+', '+'] (['-'] ++ x.data) = false
    simp [List.isPrefixOf]
  rw [h3, h4, raw_minus]
  rfl

theorem dve_pred_plus (x : String) (hx : pyStartsWith x "++" = false) :
    ((pyStartsWith ("+" ++ x) "+" || pyStartsWith ("+" ++ x) "-")
      && !(pyStartsWith ("+" ++ x) "+++" || pyStartsWith ("+" ++ x) "---")) = true := by
  have h3 : pyStartsWith ("+" ++ x) "+++" = false := by
    unfold pyStartsWith at hx ⊢
    rw [String.data_append]
    show List.isPrefixOf ['+', '+', '+'] (['+'] ++ x.data) = false
    have h2 : List.isPrefixOf ['+', '+'] x.data = false := hx
    simp [List.isPrefixOf, h2]
  have h4 : pyStartsWith ("+" ++ x) "---" = false := by
    unfold pyStartsWith
    rw [String.data_append]
    show List.isPrefixOf ['-', '-', '-'] (['+'] ++ x.data) = false
    simp [List.isPrefixOf]
  rw [h3, h4, raw_plus]
  rfl

theorem dve_pred_ctx (x : String) :
    ((pyStartsWith (" " ++ x) "+" || pyStartsWith (" " ++ x) "-")
      && !(pyStartsWith (" " ++ x) "+++" || pyStartsWith (" " ++ x) "---")) = false := by
  rw [raw_ctx]
  rfl

theorem dve_pred_hunk (g : List Opcode) :
    ((pyStartsWith (hunkLine g) "+" || pyStartsWith (hunkLine g) "-")
      && !(pyStartsWith (hunkLine g) "+++" || pyStartsWith (hunkLine g) "---")) = false := by
  rw [raw_hunk]
  rfl

theorem pySlice_subset {x : List String} {i j : Nat} :
    ∀ {s : String}, s ∈ pySlice x i j → s ∈ x := by
  intro s hs
  unfold pySlice at hs
  exact List.mem_of_mem_take (List.mem_of_mem_drop hs)

theorem emit_filter_length (a b : List String) (φ : String → Bool)
    (hminus : ∀ x ∈ a, φ ("-" ++ x) = true)
    (hplus : ∀ x ∈ b, φ ("+" ++ x) = true)
    (hctx : ∀ x ∈ a, φ (" " ++ x) = false) :
    ∀ op : Opcode, ((emitOp a b op).filter φ).length = specOpCount a b op := by
  intro op
  obtain ⟨tag, i1, i2, j1, j2⟩ := op
  cases tag with
  | equal =>
    simp only [emitOp, specOpCount]
    rw [List.filter_eq_nil_iff.mpr ?_]
    · rfl
    · intro y hy
      rw [List.mem_map] at hy
      obtain ⟨x, hx, hxy⟩ := hy
      subst hxy
      simp [hctx x (pySlice_subset hx)]
  | delete =>
    simp only [emitOp, specOpCount]
    rw [List.filter_eq_self.mpr ?_]
    · rw [List.length_map]
    · intro y hy
      rw [List.mem_map] at hy
      obtain ⟨x, hx, hxy⟩ := hy
      subst hxy
      exact hminus x (pySlice_subset hx)
  | insert =>
    simp only [emitOp, specOpCount]
    rw [List.filter_eq_self.mpr ?_]
    · rw [List.length_map]
    · intro y hy
      rw [List.mem_map] at hy
      obtain ⟨x, hx, hxy⟩ := hy
      subst hxy
      exact hplus x (pySlice_subset hx)
  | replace =>
    simp only [emitOp, specOpCount]
    rw [List.filter_append, List.length_append]
    rw [List.filter_eq_self.mpr ?_, List.filter_eq_self.mpr ?_]
    · rw [List.length_map, List.length_map]
    · intro y hy
      rw [List.mem_map] at hy
      obtain ⟨x, hx, hxy⟩ := hy
      subst hxy
      exact hplus x (pySlice_subset hx)
    · intro y hy
      rw [List.mem_map] at hy
      obtain ⟨x, hx, hxy⟩ := hy
      subst hxy
      exact hminus x (pySlice_subset hx)

theorem group_emit_filter (a b : List String) (φ : String → Bool)
    (hminus : ∀ x ∈ a, φ ("-" ++ x) = true)
    (hplus : ∀ x ∈ b, φ ("+" ++ x) = true)
    (hctx : ∀ x ∈ a, φ (" " ++ x) = false) :
    ∀ g : List Opcode,
      ((g.flatMap (emitOp a b)).filter φ).length = (g.map (specOpCount a b)).sum := by
  intro g
  induction g with
  | nil => rfl
  | cons op g ih =>
    rw [List.flatMap_cons, List.filter_append, List.length_append,
      emit_filter_length a b φ hminus hplus hctx op, ih,
      List.map_cons, List.sum_cons]

theorem diff_body_filter (a b : List String) (φ : String → Bool)
    (hminus : ∀ x ∈ a, φ ("-" ++ x) = true)
    (hplus : ∀ x ∈ b, φ ("+" ++ x) = true)
    (hctx : ∀ x ∈ a, φ (" " ++ x) = false)
    (hhunk : ∀ g : List Opcode, φ (hunkLine g) = false) :
    ∀ G : List (List Opcode),
      ((G.flatMap (fun g => hunkLine g :: g.flatMap (emitOp a b))).filter φ).length
        = ((G.flatten).map (specOpCount a b)).sum := by
  intro G
  induction G with
  | nil => rfl
  | cons g gs ih =>
    rw [List.flatMap_cons, List.filter_append, List.length_append,
      List.filter_cons, if_neg (by simp [hhunk g]),
      group_emit_filter a b φ hminus hplus hctx g, ih,
      List.flatten_cons, List.map_append, List.sum_append]

/-- For different files, the raw `startswith(('+', '-'))` count over the
unified diff is the addition/removal count plus 2: the two file headers
also start with those characters. -/
theorem unifiedDiff_filter_raw (a b : List String) (hne : a ≠ b) :
    ((unifiedDiff a b).filter
        (fun line => pyStartsWith line "+" || pyStartsWith line "-")).length
      = 2 + specChangeCount a b := by
  obtain ⟨op0, hop0, hop0ne⟩ := exists_nonequal_of_ne hne
  have hcodes_ne : ¬ (getOpcodes a b).isEmpty = true := by
    rw [List.isEmpty_iff]
    exact List.ne_nil_of_mem hop0
  have hGfilter : ((groupedOpcodes 3 (getOpcodes a b)).flatten).filter
      (fun op => decide (op.1 ≠ OpTag.equal))
      = (getOpcodes a b).filter (fun op => decide (op.1 ≠ OpTag.equal)) := by
    unfold groupedOpcodes
    rw [if_neg hcodes_ne]
    rw [groupLoop_join_filter 3 _ []]
    rw [List.nil_append, filter_nonEq_mapLast, filter_nonEq_mapHead]
  have hGsum : (((groupedOpcodes 3 (getOpcodes a b)).flatten).map
      (specOpCount a b)).sum = specChangeCount a b := by
    unfold groupedOpcodes specChangeCount
    rw [if_neg hcodes_ne]
    rw [groupLoop_join_sum a b 3 _ []]
    rw [List.nil_append, sum_map_mapLast, sum_map_mapHead]
  have hGne : ¬ (groupedOpcodes 3 (getOpcodes a b)).isEmpty = true := by
    intro hemp
    have hflat : (groupedOpcodes 3 (getOpcodes a b)).flatten = [] := by
      rw [List.isEmpty_iff.mp hemp]
      rfl
    have hmem : op0 ∈ (getOpcodes a b).filter (fun op => decide (op.1 ≠ OpTag.equal)) :=
      List.mem_filter.mpr ⟨hop0, by simpa using hop0ne⟩
    rw [← hGfilter, hflat] at hmem
    cases hmem
  unfold unifiedDiff
  rw [if_neg hGne]
  rw [List.filter_cons, if_pos (by decide), List.filter_cons, if_pos (by decide)]
  simp only [List.length_cons]
  rw [diff_body_filter a b _ (fun x _ => raw_minus x) (fun x _ => raw_plus x)
    (fun x _ => raw_ctx x) raw_hunk]
  rw [hGsum]
  omega

/-- For different files whose removed lines never begin with `--` and
whose added lines never begin with `++`, the explorer's filtered count is
exactly the addition/removal count: the prefix filter drops the two file
headers, and nothing else. -/
theorem unifiedDiff_filter_dve (a b : List String) (hne : a ≠ b)
    (ha : ∀ x ∈ a, pyStartsWith x "--" = false)
    (hb : ∀ x ∈ b, pyStartsWith x "++" = false) :
    ((unifiedDiff a b).filter (fun line =>
        (pyStartsWith line "+" || pyStartsWith line "-")
          && !(pyStartsWith line "+++" || pyStartsWith line "---"))).length
      = specChangeCount a b := by
  obtain ⟨op0, hop0, hop0ne⟩ := exists_nonequal_of_ne hne
  have hcodes_ne : ¬ (getOpcodes a b).isEmpty = true := by
    rw [List.isEmpty_iff]
    exact List.ne_nil_of_mem hop0
  have hGfilter : ((groupedOpcodes 3 (getOpcodes a b)).flatten).filter
      (fun op => decide (op.1 ≠ OpTag.equal))
      = (getOpcodes a b).filter (fun op => decide (op.1 ≠ OpTag.equal)) := by
    unfold groupedOpcodes
    rw [if_neg hcodes_ne]
    rw [groupLoop_join_filter 3 _ []]
    rw [List.nil_append, filter_nonEq_mapLast, filter_nonEq_mapHead]
  have hGsum : (((groupedOpcodes 3 (getOpcodes a b)).flatten).map
      (specOpCount a b)).sum = specChangeCount a b := by
    unfold groupedOpcodes specChangeCount
    rw [if_neg hcodes_ne]
    rw [groupLoop_join_sum a b 3 _ []]
    rw [List.nil_append, sum_map_mapLast, sum_map_mapHead]
  have hGne : ¬ (groupedOpcodes 3 (getOpcodes a b)).isEmpty = true := by
    intro hemp
    have hflat : (groupedOpcodes 3 (getOpcodes a b)).flatten = [] := by
      rw [List.isEmpty_iff.mp hemp]
      rfl
    have hmem : op0 ∈ (getOpcodes a b).filter (fun op => decide (op.1 ≠ OpTag.equal)) :=
      List.mem_filter.mpr ⟨hop0, by simpa using hop0ne⟩
    rw [← hGfilter, hflat] at hmem
    cases hmem
  unfold unifiedDiff
  rw [if_neg hGne]
  rw [List.filter_cons, if_neg (by decide), List.filter_cons, if_neg (by decide)]
  rw [diff_body_filter a b _ (fun x hx => dve_pred_minus x (ha x hx))
    (fun x hx => dve_pred_plus x (hb x hx))
    (fun x _ => dve_pred_ctx x) dve_pred_hunk]
  rw [hGsum]

/-- `SnapVersion+Plus`'s descriptor count is always one less than the
addition/removal count (0 for identical files), because the
`max(0, count - 3)` adjustment subtracts 3 while only the two header
lines were overcounted. -/
theorem changeDescriptorSnap_eq (older newer : List String) :
    changeDescriptorSnap older newer
      = changeSign older newer
        ++ toString (specChangeCount older newer - 1) ++ " lines" := by
  by_cases h : older = newer
  · subst h
    unfold changeDescriptorSnap
    rw [unifiedDiff_self, specChangeCount_self]
    rfl
  · simp only [changeDescriptorSnap]
    rw [unifiedDiff_filter_raw older newer h]
    have harith : 2 + specChangeCount older newer - 3
        = specChangeCount older newer - 1 := by omega
    rw [harith]

/-- The explorer's descriptor count equals the addition/removal count,
provided no removed line begins with `--` and no added line with `++`
(such content lines would be wrongly excluded by its header filter). -/
theorem changeDescriptorDVE_eq (older newer : List String)
    (ha : ∀ x ∈ older, pyStartsWith x "--" = false)
    (hb : ∀ x ∈ newer, pyStartsWith x "++" = false) :
    changeDescriptorDVE older newer
      = changeSign older newer
        ++ toString (specChangeCount older newer) ++ " lines" := by
  by_cases h : older = newer
  · subst h
    unfold changeDescriptorDVE
    rw [unifiedDiff_self, specChangeCount_self]
    rfl
  · simp only [changeDescriptorDVE]
    rw [unifiedDiff_filter_dve older newer h ha hb]

/-- C1 counterexample: with older file `a\n` and newer file `b\n`, the
unified diff has 2 addition/removal lines (the claimed count), but
`SnapVersion+Plus` reports `"1 lines"`: its `max(0, count - 3)` subtracts
3 after counting the two header lines among the `+`/`-` lines. -/
theorem C1_counterexample :
    specChangeCount ["a\n"] ["b\n"] = 2
      ∧ changeDescriptorSnap ["a\n"] ["b\n"] = "1 lines"
      ∧ changeDescriptorSnap ["a\n"] ["b\n"]
          ≠ changeSign ["a\n"] ["b\n"]
            ++ toString (specChangeCount ["a\n"] ["b\n"]) ++ " lines" :=
  ⟨by decide, by decide, by decide⟩

/-- C1 (amended): for consecutive entries whose files are read
successfully, the newer entry's descriptor is `"<sign><count> lines"`
with the sign as claimed, but the count differs from the claimed
addition/removal count: `SnapVersion+Plus` reports that count minus one
(floored at 0, and 0 for identical files), while
`DocumentVersionExplorer` reports exactly that count whenever no removed
line begins with `--` and no added line begins with `++`. -/
theorem C1_change_descriptor_amended (reads : List (Option (List String)))
    (i : Nat) (cur older : List String)
    (hc : reads[i]? = some (some cur)) (ho : reads[i + 1]? = some (some older)) :
    (diffCountsOf changeDescriptorSnap reads)[i]?
        = some (changeSign older cur
            ++ toString (specChangeCount older cur - 1) ++ " lines")
      ∧ ((∀ x ∈ older, pyStartsWith x "--" = false) →
          (∀ x ∈ cur, pyStartsWith x "++" = false) →
          (diffCountsOf changeDescriptorDVE reads)[i]?
            = some (changeSign older cur
                ++ toString (specChangeCount older cur) ++ " lines")) := by
  constructor
  · rw [diffCountsOf_mid _ reads i cur older hc ho, changeDescriptorSnap_eq]
  · intro ha hb
    rw [diffCountsOf_mid _ reads i cur older hc ho, changeDescriptorDVE_eq older cur ha hb]

/-- C1 witness: the two-entry set of the counterexample files. -/
theorem C1_amended_witness :
    (diffCountsOf changeDescriptorSnap [some ["b\n"], some ["a\n"]])[0]?
        = some (changeSign ["a\n"] ["b\n"]
            ++ toString (specChangeCount ["a\n"] ["b\n"] - 1) ++ " lines")
      ∧ (diffCountsOf changeDescriptorDVE [some ["b\n"], some ["a\n"]])[0]?
        = some (changeSign ["a\n"] ["b\n"]
            ++ toString (specChangeCount ["a\n"] ["b\n"]) ++ " lines") :=
  ⟨(C1_change_descriptor_amended [some ["b\n"], some ["a\n"]] 0 ["b\n"] ["a\n"]
      rfl rfl).1,
    (C1_change_descriptor_amended [some ["b\n"], some ["a\n"]] 0 ["b\n"] ["a\n"]
      rfl rfl).2 (by decide) (by decide)⟩

end SnapVersion
